import Mathlib

/-!
Verification of the photo-gallery client (`js/app.js` and the collage-packer variant).

Shallow embedding of the gallery's pure logic:

* photo records, tag filtering (`applyFilter`, `hasAllTags`, `hasAnyTag`);
* date parsing and sorting (`parseDateTaken`, `sortPhotos`), including the
  Fisher-Yates shuffle of the `random` mode;
* URL-state initialization (`getUrlState`, with a model of `parseInt`);
* the pagination/render step (`render`, the load-more click handler and the
  infinite-scroll trigger);
* the skyline collage packer (`mergeSkyline`, `findPosition`, `addRect`,
  `layoutCollagePacked`), over exact rationals.

JavaScript numbers are embedded as `ℚ` (the packer) or `ℤ` (timestamps);
`Date.parse` is an oracle parameter `String → Option ℤ`, `Math.random` draws
are an oracle `Nat → Nat`, and the URL query is an oracle `String → Option String`.
-/

namespace Gallery

/-! ## Data model (`data/photos.json` records, as consumed by `js/app.js`) -/

/-- The `exif` sub-record; only `dateTaken` matters for the verified logic. -/
structure Exif where
  dateTaken : Option String
  deriving DecidableEq, Repr

/-- A photo record.  `tags` and `exif` are optional, mirroring
`photo?.tags || []` and `p?.exif?.dateTaken` in the source. -/
structure Photo where
  tags : Option (List String)
  exif : Option Exif
  deriving DecidableEq, Repr

/-- `photo?.tags || []`. -/
def photoTags (p : Photo) : List String :=
  p.tags.getD []

/-- `parseDateTaken` (app.js:40-45): returns `none` when `exif` or `dateTaken`
is absent, when the string is empty (falsy in JS), or when `Date.parse`
(the oracle `dp`) yields `NaN`. -/
def parseDateTaken (dp : String → Option Int) (p : Photo) : Option Int :=
  match p.exif with
  | none => none
  | some e =>
    match e.dateTaken with
    | none => none
    | some dt => if dt = "" then none else dp dt

/-- The timestamp used by the sort comparator: `parseDateTaken(a) ?? 0`. -/
def tsOf (dp : String → Option Int) (p : Photo) : Int :=
  (parseDateTaken dp p).getD 0

/-! ## Tag filtering (`hasAllTags`, `hasAnyTag`, `applyFilter`, app.js:57-77) -/

/-- `hasAllTags` (app.js:57-61): every selected tag is in the photo's tag set. -/
def hasAllTags (p : Photo) (tags : List String) : Bool :=
  tags.all (fun t => (photoTags p).contains t)

/-- `hasAnyTag` (app.js:63-67): some selected tag is in the photo's tag set. -/
def hasAnyTag (p : Photo) (tags : List String) : Bool :=
  tags.any (fun t => (photoTags p).contains t)

/-- `applyFilter` (app.js:69-77).  `selected` is `Array.from(selectedTags)`;
`mode` is the `filterMode` global (`"AND"` or anything else, meaning ANY). -/
def applyFilter (mode : String) (selected : List String) (arr : List Photo) :
    List Photo :=
  if selected.length = 0 then arr
  else if mode = "AND" then arr.filter (fun p => hasAllTags p selected)
  else arr.filter (fun p => hasAnyTag p selected)

/-! ## Sorting (`sortPhotos`, app.js:79-95) -/

/-- One in-place swap `[copy[i], copy[j]] = [copy[j], copy[i]]`, on lists.
Out-of-range indices leave the list unchanged (they cannot occur in the
shuffle loop). -/
def lswap {α : Type} (l : List α) (i j : Nat) : List α :=
  match l[i]?, l[j]? with
  | some a, some b => (l.set i b).set j a
  | _, _ => l

/-- The Fisher-Yates loop `for (let i = copy.length - 1; i > 0; i--)`:
the argument is the running value of `i`; `f i` models the draw
`Math.floor(Math.random() * (i + 1))`, reduced mod `i + 1` so that any
oracle describes a legal sequence of draws. -/
def fyLoop {α : Type} (f : Nat → Nat) : Nat → List α → List α
  | 0, l => l
  | i + 1, l => fyLoop f i (lswap l (i + 1) (f (i + 1) % (i + 2)))

/-- The whole shuffle of the `random` branch of `sortPhotos`. -/
def shuffle {α : Type} (f : Nat → Nat) (l : List α) : List α :=
  fyLoop f (l.length - 1) l

/-- The date comparator of `sortPhotos`:
`(a, b) => mode === "date_asc" ? (ta - tb) : (tb - ta)`, as the relation
"the comparator is ≤ 0", which is the order a stable sort realizes. -/
def dateLe (dp : String → Option Int) (mode : String) (a b : Photo) : Prop :=
  (if mode = "date_asc" then tsOf dp a - tsOf dp b else tsOf dp b - tsOf dp a) ≤ 0

instance (dp : String → Option Int) (mode : String) :
    DecidableRel (dateLe dp mode) := fun a b =>
  inferInstanceAs (Decidable (_ ≤ (0 : Int)))

/-- `sortPhotos` (app.js:79-95).  `Array.prototype.sort` is required to be
stable, so the date branch is embedded as a stable insertion sort by the
comparator relation. -/
def sortPhotos (dp : String → Option Int) (f : Nat → Nat) (arr : List Photo)
    (mode : String) : List Photo :=
  if mode = "random" then shuffle f arr
  else List.insertionSort (dateLe dp mode) arr

/-! ## URL-state initialization (`getUrlState`, app.js:108-124)

The query string is an oracle `q : String → Option String` standing for
`new URLSearchParams(window.location.search).get`. -/

/-- JS `v || d` for a nullable string: `null` and `""` are falsy. -/
def jsOrStr (o : Option String) (d : String) : String :=
  match o with
  | none => d
  | some s => if s = "" then d else s

/-- Model of JS `String.prototype.toUpperCase` (character-wise upcasing). -/
def jsToUpper (s : String) : String :=
  String.mk (s.data.map Char.toUpper)

/-- Model of JS `String.prototype.trim`: strip whitespace on both ends. -/
def jsTrim (s : String) : String :=
  String.mk
    (((s.data.dropWhile Char.isWhitespace).reverse.dropWhile
        Char.isWhitespace).reverse)

/-- Helper for `jsSplitComma`: `acc` holds the current field, reversed. -/
def splitCommaAux : List Char → List Char → List String
  | [], acc => [String.mk acc.reverse]
  | c :: r, acc =>
    if c = ',' then String.mk acc.reverse :: splitCommaAux r []
    else splitCommaAux r (c :: acc)

/-- Model of JS `String.prototype.split(",")`. -/
def jsSplitComma (s : String) : List String :=
  splitCommaAux s.data []

/-- Model of JS `parseInt(s, 10)`: trim, optional sign, then the longest
leading run of decimal digits; `none` models `NaN`. -/
def parseIntTen (s : String) : Option Int :=
  let cs := (jsTrim s).toList
  let sgn : Int := match cs with
    | '-' :: _ => -1
    | _ => 1
  let rest : List Char := match cs with
    | '-' :: r => r
    | '+' :: r => r
    | r => r
  let ds := rest.takeWhile Char.isDigit
  if ds.isEmpty then none
  else some (sgn * (ds.foldl (fun acc c => acc * 10 + (c.toNat - '0'.toNat)) 0 : Nat))

/-- The view state produced by `getUrlState`. -/
structure UrlState where
  tags : List String
  mode : String
  sort : String
  page : Int
  deriving DecidableEq, Repr

/-- `getUrlState` (app.js:108-124). -/
def getUrlState (q : String → Option String) : UrlState :=
  let tagsRaw := jsOrStr (q "tags") ""
  { tags := ((jsSplitComma tagsRaw).map jsTrim).filter (fun t => t ≠ "")
    mode := if jsToUpper (jsOrStr (q "mode") "AND") = "OR" then "OR" else "AND"
    sort := jsOrStr (q "sort") "date_desc"
    page :=
      match parseIntTen (jsOrStr (q "page") "1") with
      | none => 1
      | some n => if 0 < n then n else 1 }

/-! ## Pagination and incremental rendering (`render`, app.js:225-276;
load-more click handler, app.js:497-501; `ensureInfiniteScroll`,
app.js:400-417)

The grid is modelled as the list of view-list indices materialized as tiles
(`tile.dataset.index`), which is exactly what the append-only loop produces. -/

/-- `PAGE_SIZE` (app.js:32). -/
def PAGE_SIZE : Nat := 60

/-- `Math.min(total, page * PAGE_SIZE)` — the target rendered count. -/
def targetCount (total page : Nat) : Nat :=
  min total (page * PAGE_SIZE)

/-- The renderer's mutable state: the tiles in the grid (by view-list index)
and `renderedCount`. -/
structure RenderState where
  tiles : List Nat
  renderedCount : Nat
  deriving DecidableEq, Repr

/-- `render` (app.js:225-276): clear when shrinking below the rendered
count, then append tiles for indices `renderedCount..target-1`. -/
def render (total page : Nat) (s : RenderState) : RenderState :=
  let target := targetCount total page
  let s0 := if target < s.renderedCount then RenderState.mk [] 0 else s
  { tiles := s0.tiles ++ List.range' s0.renderedCount (target - s0.renderedCount)
    renderedCount := target }

/-- The page counter plus renderer state. -/
structure ViewUIState where
  page : Nat
  rs : RenderState
  deriving DecidableEq, Repr

/-- The load-more click handler (app.js:497-501): `page += 1; render()`,
unconditionally. -/
def clickLoadMore (total : Nat) (s : ViewUIState) : ViewUIState :=
  ViewUIState.mk (s.page + 1) (render total (s.page + 1) s.rs)

/-- The infinite-scroll callback (app.js:400-417): advance only while
`showing < total`. -/
def scrollTrigger (total : Nat) (s : ViewUIState) : ViewUIState :=
  if targetCount total s.page < total then
    ViewUIState.mk (s.page + 1) (render total (s.page + 1) s.rs)
  else s

/-! ## URL state: claim C6 -/

/-- Counterexample to **C6** as stated: `getUrlState` does not validate the
`sort` parameter at all — `?sort=banana` yields `sort = "banana"`, not the
documented default `date_desc`.  (`mode` is also case-insensitive for `OR`:
`?mode=or` yields `OR`, not the default `AND`.) -/
theorem url_sort_not_validated :
    (getUrlState (fun k => if k = "sort" then some "banana" else none)).sort =
        "banana" ∧
      "banana" ≠ "date_desc" ∧
      (getUrlState (fun k => if k = "mode" then some "or" else none)).mode =
        "OR" := by
  refine ⟨rfl, by decide, by decide⟩

/-- **C6 (amended)**: initialization never throws and always yields a valid
state for `mode` and `page`: `mode` is `AND` unless the value's uppercase
form is `OR` (matching is case-insensitive); `page` is at least 1, with
missing, non-numeric, zero or negative values replaced by 1; `sort`
defaults to `date_desc` only when missing or empty and is otherwise passed
through unvalidated. -/
theorem url_state_defaults (q : String → Option String) :
    ((getUrlState q).mode = "AND" ∨ (getUrlState q).mode = "OR") ∧
    (∀ s, q "mode" = some s → jsToUpper s ≠ "OR" →
      (getUrlState q).mode = "AND") ∧
    (∀ s, q "mode" = some s → jsToUpper s = "OR" → s ≠ "" →
      (getUrlState q).mode = "OR") ∧
    (q "sort" = none → (getUrlState q).sort = "date_desc") ∧
    (q "sort" = some "" → (getUrlState q).sort = "date_desc") ∧
    (∀ s, q "sort" = some s → s ≠ "" → (getUrlState q).sort = s) ∧
    (1 ≤ (getUrlState q).page) ∧
    (q "page" = none → (getUrlState q).page = 1) ∧
    (∀ s, q "page" = some s → parseIntTen (jsOrStr (some s) "1") = none →
      (getUrlState q).page = 1) ∧
    (∀ s n, q "page" = some s → parseIntTen (jsOrStr (some s) "1") = some n →
      n ≤ 0 → (getUrlState q).page = 1) ∧
    (∀ s n, q "page" = some s → parseIntTen (jsOrStr (some s) "1") = some n →
      0 < n → (getUrlState q).page = n) := by
  unfold getUrlState
  refine ⟨?_, ?_, ?_, ?_, ?_, ?_, ?_, ?_, ?_, ?_, ?_⟩
  · dsimp only
    split
    · exact Or.inr rfl
    · exact Or.inl rfl
  · intro s hq hup
    dsimp only
    rw [hq]
    by_cases hse : s = ""
    · subst hse
      rw [show jsOrStr (some "") "AND" = "AND" from rfl, if_neg (by decide)]
    · rw [show jsOrStr (some s) "AND" = if s = "" then "AND" else s from rfl,
        if_neg hse, if_neg hup]
  · intro s hq hup hne
    dsimp only
    rw [hq]
    rw [show jsOrStr (some s) "AND" = if s = "" then "AND" else s from rfl,
      if_neg hne, if_pos hup]
  · intro hq
    dsimp only
    rw [hq]
    rfl
  · intro hq
    dsimp only
    rw [hq]
    rfl
  · intro s hq hne
    dsimp only
    rw [hq]
    rw [show jsOrStr (some s) "date_desc" = if s = "" then "date_desc" else s
        from rfl, if_neg hne]
  · dsimp only
    split
    · omega
    · split <;> omega
  · intro hq
    dsimp only
    rw [hq]
    decide
  · intro s hq hnone
    dsimp only
    rw [hq, hnone]
  · intro s n hq hsome hn
    dsimp only
    rw [hq, hsome]
    show (if 0 < n then n else 1) = 1
    rw [if_neg (by omega)]
  · intro s n hq hsome hn
    dsimp only
    rw [hq, hsome]
    show (if 0 < n then n else 1) = n
    rw [if_pos hn]

/-- Witness for the amended C6 at a concrete query
(`?mode=weird&sort=&page=-3`). -/
theorem url_state_defaults_witness :
    ((getUrlState (fun k =>
        if k = "mode" then some "weird"
        else if k = "sort" then some ""
        else if k = "page" then some "-3" else none)).mode = "AND") ∧
    ((getUrlState (fun k =>
        if k = "mode" then some "weird"
        else if k = "sort" then some ""
        else if k = "page" then some "-3" else none)).sort = "date_desc") ∧
    ((getUrlState (fun k =>
        if k = "mode" then some "weird"
        else if k = "sort" then some ""
        else if k = "page" then some "-3" else none)).page = 1) :=
  ⟨(url_state_defaults _).2.1 "weird" (by decide) (by decide),
   (url_state_defaults _).2.2.2.2.1 (by decide),
   (url_state_defaults _).2.2.2.2.2.2.2.2.2.1 "-3" (-3) (by decide) (by decide)
     (by decide)⟩

/-! ## Pagination and incremental rendering: claims C4 and C9 -/

/-- Counterexample to **C4** as stated: once the rendered count has reached
the total, a load-more click is *not* a no-op — the handler increments
`page` unconditionally (observable via the URL's `page` parameter), even
though the rendered tiles do not change.  (The infinite-scroll trigger, by
contrast, checks `showing < total` and really is a no-op.) -/
theorem loadmore_not_noop :
    targetCount 1 1 = 1 ∧
    clickLoadMore 1 (ViewUIState.mk 1 (RenderState.mk [0] 1)) ≠
      ViewUIState.mk 1 (RenderState.mk [0] 1) ∧
    (clickLoadMore 1 (ViewUIState.mk 1 (RenderState.mk [0] 1))).rs =
      RenderState.mk [0] 1 := by
  refine ⟨by decide, by decide, by decide⟩

/-- **C4 (amended)**: from a consistent state (`renderedCount` equal to the
current target), either advance step yields a rendered count of
`min(total, page × PAGE_SIZE)` for its resulting page, the count never
decreases; once the count reaches `total`, the scroll trigger is a full
no-op while a load-more click (whose button is hidden then) leaves the
rendered grid unchanged but still increments `page`. -/
theorem advance_page_spec (total : Nat) (s : ViewUIState)
    (hwf : s.rs.renderedCount = targetCount total s.page) :
    ((clickLoadMore total s).rs.renderedCount =
      targetCount total (s.page + 1)) ∧
    ((scrollTrigger total s).rs.renderedCount =
      targetCount total (scrollTrigger total s).page) ∧
    (s.rs.renderedCount ≤ (clickLoadMore total s).rs.renderedCount) ∧
    (s.rs.renderedCount ≤ (scrollTrigger total s).rs.renderedCount) ∧
    (targetCount total s.page = total → scrollTrigger total s = s) ∧
    (targetCount total s.page = total →
      (clickLoadMore total s).rs = s.rs ∧
        (clickLoadMore total s).page = s.page + 1) := by
  have hmono : targetCount total s.page ≤ targetCount total (s.page + 1) := by
    unfold targetCount
    have : s.page * PAGE_SIZE ≤ (s.page + 1) * PAGE_SIZE :=
      Nat.mul_le_mul_right _ (Nat.le_succ _)
    omega
  have hrc : ∀ pg, (render total pg s.rs).renderedCount = targetCount total pg :=
    fun pg => rfl
  refine ⟨hrc _, ?_, ?_, ?_, ?_, ?_⟩
  · unfold scrollTrigger
    split
    · exact hrc _
    · exact hwf
  · show s.rs.renderedCount ≤ (render total (s.page + 1) s.rs).renderedCount
    rw [hrc]
    omega
  · unfold scrollTrigger
    split
    · show s.rs.renderedCount ≤ (render total (s.page + 1) s.rs).renderedCount
      rw [hrc]
      omega
    · exact le_refl _
  · intro htot
    unfold scrollTrigger
    rw [if_neg (by omega)]
  · intro htot
    have hge : total ≤ (s.page + 1) * PAGE_SIZE := by
      unfold targetCount at htot
      have h1 : s.page * PAGE_SIZE ≤ (s.page + 1) * PAGE_SIZE :=
        Nat.mul_le_mul_right _ (Nat.le_succ _)
      omega
    have htot2 : targetCount total (s.page + 1) = total := by
      unfold targetCount
      omega
    have hrc2 : s.rs.renderedCount = total := by rw [hwf, htot]
    refine ⟨?_, rfl⟩
    show render total (s.page + 1) s.rs = s.rs
    unfold render
    dsimp only
    rw [htot2, hrc2, if_neg (lt_irrefl total), hrc2, Nat.sub_self]
    simp only [List.range', List.append_nil]
    rw [← hrc2]

/-- Witness for the amended C4: an exhausted one-page view where the scroll
trigger does nothing. -/
theorem advance_page_spec_witness :
    scrollTrigger 0 (ViewUIState.mk 1 (RenderState.mk [] 0)) =
      ViewUIState.mk 1 (RenderState.mk [] 0) :=
  (advance_page_spec 0 (ViewUIState.mk 1 (RenderState.mk [] 0))
      (by decide)).2.2.2.2.1 (by decide)

/-- **C9**: when only pagination grows (prior rendered count `r` at most the
new target), `render` appends exactly the newly-revealed indices in list
order and leaves every already-rendered tile untouched. -/
theorem render_appends_only (total page : Nat) (tiles : List Nat) (r : Nat)
    (hr : r ≤ targetCount total page) :
    ((render total page (RenderState.mk tiles r)).tiles =
      tiles ++ List.range' r (targetCount total page - r)) ∧
    ((render total page (RenderState.mk tiles r)).tiles.take tiles.length =
      tiles) ∧
    ((render total page (RenderState.mk tiles r)).renderedCount =
      targetCount total page) ∧
    (tiles = List.range r →
      (render total page (RenderState.mk tiles r)).tiles =
        List.range (targetCount total page)) := by
  unfold render
  dsimp only
  rw [if_neg (not_lt.mpr hr)]
  refine ⟨rfl, by simp, rfl, ?_⟩
  intro htiles
  subst htiles
  show List.range r ++ List.range' r (targetCount total page - r) =
    List.range (targetCount total page)
  rw [List.range_eq_range', List.range_eq_range']
  have h := List.range'_append 0 r (targetCount total page - r) 1
  simp only [one_mul, zero_add] at h
  rw [h]
  congr 1
  omega

/-- Witness for C9: growing from 2 rendered tiles to a target of 4. -/
theorem render_appends_only_witness :
    ((render 9 1 (RenderState.mk [0, 1] 2)).tiles = [0, 1] ++ List.range' 2 7) ∧
    ((render 9 1 (RenderState.mk [0, 1] 2)).tiles.take 2 = [0, 1]) :=
  ⟨((render_appends_only 9 1 [0, 1] 2 (by decide)).1),
   ((render_appends_only 9 1 [0, 1] 2 (by decide)).2.1)⟩

end Gallery

namespace Packer

/-! ## The skyline collage packer (`layoutCollagePacked` and helpers, in the
collage variant of `app.js`)

Coordinates are exact rationals.  A skyline node `{x, y, w}` means: from `x`
to `x + w` the packed height is `y`. -/

/-- A skyline node `{ x, y, w }`. -/
structure Seg where
  x : ℚ
  y : ℚ
  w : ℚ
  deriving DecidableEq, Repr

/-- A placement candidate `{ x, y }`. -/
structure Pos where
  x : ℚ
  y : ℚ
  deriving DecidableEq, Repr

/-- A rendered tile rectangle (`left`, `top`, `width`, `height`). -/
structure Rect where
  x : ℚ
  y : ℚ
  w : ℚ
  h : ℚ
  deriving DecidableEq, Repr

/-- `clamp` from the collage variant: `Math.max(a, Math.min(b, x))`. -/
def clamp (x a b : ℚ) : ℚ :=
  max a (min b x)

/-- The merge condition of `mergeSkyline`:
`Math.abs(last.y - n.y) < 0.5 && Math.abs(last.x + last.w - n.x) < 0.5`. -/
def mergeCond (s t : Seg) : Prop :=
  |s.y - t.y| < 1/2 ∧ |s.x + s.w - t.x| < 1/2

instance : DecidableRel mergeCond := fun s t =>
  inferInstanceAs (Decidable (_ ∧ _))

/-- The body of `mergeSkyline`'s loop: `s` is the running last element of
`out`; merging widens it (`last.w += n.w`), otherwise it is emitted. -/
def mergeInto (s : Seg) : List Seg → List Seg
  | [] => [s]
  | t :: r =>
    if mergeCond s t then mergeInto (Seg.mk s.x s.y (s.w + t.w)) r
    else s :: mergeInto t r

/-- `mergeSkyline`: merge adjacent nodes with (nearly) the same `y`. -/
def mergeSkyline : List Seg → List Seg
  | [] => []
  | s :: r => mergeInto s r

/-- The inner `while` of `findPosition`: walk segments covering
`[x, x + remaining)`, accumulating the max `y`; `none` when coverage runs
out or there is a gap (`seg.x > x + 0.5`). -/
def coverScan : List Seg → ℚ → ℚ → ℚ → Option ℚ
  | [], _, remaining, y => if remaining ≤ 0 then some y else none
  | seg :: r, x, remaining, y =>
    if remaining ≤ 0 then some y
    else if x + 1/2 < seg.x then none
    else
      coverScan r (x + min remaining (seg.x + seg.w - x))
        (remaining - min remaining (seg.x + seg.w - x)) (max y seg.y)

/-- The candidate-selection step of `findPosition`: keep `best` unless the
candidate is lower by more than `0.5`, or equally high (within `0.5`) and
further left. -/
def betterPos (best : Option Pos) (cand : Pos) : Option Pos :=
  match best with
  | none => some cand
  | some b =>
    if cand.y < b.y - 1/2 then some cand
    else if |cand.y - b.y| < 1/2 ∧ cand.x < b.x then some cand
    else some b

/-- The outer loop of `findPosition`, scanning skyline suffixes: each node's
`x` is a candidate start. -/
def findGo (cw w : ℚ) : List Seg → Option Pos → Option Pos
  | [], best => best
  | seg :: r, best =>
    let best2 :=
      if cw < seg.x + w then best
      else
        match coverScan (seg :: r) seg.x w seg.y with
        | none => best
        | some y => betterPos best (Pos.mk seg.x y)
    findGo cw w r best2

/-- `findPosition(w, h)` (the collage variant): the height argument is
accepted but unused, as in the source. -/
def findPosition (cw : ℚ) (w _h : ℚ) (skyline : List Seg) : Option Pos :=
  findGo cw w skyline none

/-- The per-segment part of `addRect`: keep non-overlapping segments and
emit the left/right remainders of overlapped ones. -/
def splitSegs (x rectEnd : ℚ) (skyline : List Seg) : List Seg :=
  skyline.flatMap fun seg =>
    if seg.x + seg.w ≤ x ∨ rectEnd ≤ seg.x then [seg]
    else
      (if seg.x < x then [Seg.mk seg.x seg.y (x - seg.x)] else []) ++
      (if rectEnd < seg.x + seg.w then
          [Seg.mk rectEnd seg.y (seg.x + seg.w - rectEnd)]
        else [])

/-- The order realized by JS `Array.prototype.sort` with comparator
`(a, b) => a.x - b.x`. -/
def segLe (s t : Seg) : Prop :=
  s.x ≤ t.x

instance : DecidableRel segLe := fun s t =>
  inferInstanceAs (Decidable (_ ≤ _))

instance : IsTotal Seg segLe :=
  ⟨fun s t => le_total s.x t.x⟩

instance : IsTrans Seg segLe :=
  ⟨fun _ _ _ h1 h2 => le_trans h1 h2⟩

/-- Two segments occupy disjoint x-ranges. -/
def segDisj (s t : Seg) : Prop :=
  s.x + s.w ≤ t.x ∨ t.x + t.w ≤ s.x

/-- JS `Array.prototype.sort` by `(a, b) => a.x - b.x`. -/
def sortByX (l : List Seg) : List Seg :=
  List.insertionSort segLe l

/-- `addRect(x, y, w, h)`: cut the rectangle's footprint out of the skyline,
insert the segment at the new top edge, sort by `x`, and merge. -/
def addRect (x y w h : ℚ) (skyline : List Seg) : List Seg :=
  mergeSkyline (sortByX (splitSegs x (x + w) skyline ++ [Seg.mk x (y + h) w]))

/-- The packer's loop state: the skyline, `maxBottom`, and the rectangles
applied to the tiles so far (visual sizes, not inflated). -/
structure PackState where
  skyline : List Seg
  maxBottom : ℚ
  placed : List Rect
  deriving DecidableEq, Repr

/-- One iteration of the tile loop of `layoutCollagePacked`, for a tile of
visual size `(w, h)`: inflate by `gap`, find a position (bottom-left
fallback), record the visual rectangle, update skyline and `maxBottom`. -/
def packStep (cw gap : ℚ) (st : PackState) (sz : ℚ × ℚ) : PackState :=
  let w := sz.1
  let h := sz.2
  let packW := min (w + gap) cw
  let packH := h + gap
  let pos := (findPosition cw packW packH st.skyline).getD (Pos.mk 0 st.maxBottom)
  { skyline := addRect pos.x pos.y packW packH st.skyline
    maxBottom := max st.maxBottom (pos.y + packH)
    placed := st.placed ++ [Rect.mk pos.x pos.y w h] }

/-- The whole packing pass of `layoutCollagePacked` over the tiles' visual
sizes, starting from the full-width zero skyline
`[{ x: 0, y: 0, w: cw }]`. -/
def packAll (cw gap : ℚ) (sizes : List (ℚ × ℚ)) : PackState :=
  sizes.foldl (packStep cw gap) (PackState.mk [Seg.mk 0 0 cw] 0 [])

/-- The sizing step of `layoutCollagePacked` for a tile with raw aspect
ratio `ar`: `(w, h)` is a possible outcome of
`w = sqrt(area * ar); h = w / ar; w = clamp(w, minW, maxW);
h = clamp(h, minH, maxH)` — `s` stands for the exact square root, so this
relation holds precisely when the source's floating `Math.sqrt` is exact. -/
def tileDims (area minW maxW minH maxH ar w h : ℚ) : Prop :=
  ∃ s : ℚ, 0 ≤ s ∧
    s ^ 2 = area * (if ar ≤ 1/20 then 3/2 else ar) ∧
    w = clamp s minW maxW ∧
    h = clamp (s / (if ar ≤ 1/20 then 3/2 else ar)) minH maxH

/-! ### The packing properties stated by the spec -/

/-- A point `p` is covered by a node whose height is `y`. -/
def coveredY (l : List Seg) (p y : ℚ) : Prop :=
  ∃ s ∈ l, s.x ≤ p ∧ p < s.x + s.w ∧ y = s.y

/-- A point `p` is covered by some node. -/
def covered (l : List Seg) (p : ℚ) : Prop :=
  ∃ s ∈ l, s.x ≤ p ∧ p < s.x + s.w

/-- Structural well-formedness of a skyline between `a` and `b`: the nodes
tile `[a, b)` in order, each with positive width. -/
def spans : ℚ → ℚ → List Seg → Prop
  | a, b, [] => a = b
  | a, b, s :: r => s.x = a ∧ 0 < s.w ∧ spans (a + s.w) b r

/-- The spec's skyline invariant: sorted by `x` ascending, pairwise
non-overlapping, contiguous, and covering exactly `[0, cw)`. -/
def SkylineInvariant (cw : ℚ) (l : List Seg) : Prop :=
  l.Pairwise (fun s t => s.x < t.x) ∧
  l.Pairwise segDisj ∧
  l.Chain' (fun s t => s.x + s.w = t.x) ∧
  (∀ p : ℚ, covered l p ↔ 0 ≤ p ∧ p < cw)

/-- Two rectangles, each inflated by `gap` on its trailing edges, overlap:
the tiles are closer than the configured gap. -/
def inflOverlap (gap : ℚ) (r t : Rect) : Prop :=
  r.x < t.x + t.w + gap ∧ t.x < r.x + r.w + gap ∧
  r.y < t.y + t.h + gap ∧ t.y < r.y + r.h + gap

instance (gap : ℚ) : DecidableRel (inflOverlap gap) := fun r t =>
  inferInstanceAs (Decidable (_ ∧ _))

/-- What `findPosition` guarantees about a returned position: it starts at
some skyline node's `x`, fits in the container, sits at some node's height,
and that height clears the whole skyline under the candidate span. -/
def ValidPos (cw w : ℚ) (sky : List Seg) (pos : Pos) : Prop :=
  (∃ s ∈ sky, pos.x = s.x) ∧ pos.x + w ≤ cw ∧ (∃ s ∈ sky, pos.y = s.y) ∧
  ∀ p yy, pos.x ≤ p → p < pos.x + w → coveredY sky p yy → yy ≤ pos.y

/-- The loop invariant of `layoutCollagePacked` when every inflated tile
height is an integer (so the `0.5`-tolerance merge of `mergeSkyline` only
merges exactly equal heights) and every inflated tile width fits the
container.  The skyline is well-formed, sits at or below `maxBottom`, and
clears the top of every placed tile over that tile's inflated footprint;
placed tiles are inside the container and pairwise gap-separated. -/
structure PackInv (cw gap : ℚ) (st : PackState) : Prop where
  hsp : spans 0 cw st.skyline
  intY : ∀ s ∈ st.skyline, ∃ n : ℤ, s.y = n
  ynn : ∀ s ∈ st.skyline, 0 ≤ s.y
  ymb : ∀ s ∈ st.skyline, s.y ≤ st.maxBottom
  mbInt : ∃ n : ℤ, st.maxBottom = n
  mbnn : 0 ≤ st.maxBottom
  tops : ∀ r ∈ st.placed, r.y + r.h + gap ≤ st.maxBottom
  inside : ∀ r ∈ st.placed, 0 ≤ r.x ∧ r.x + r.w + gap ≤ cw ∧ 0 ≤ r.y
  skyAbove : ∀ r ∈ st.placed, ∀ p, r.x ≤ p → p < r.x + r.w + gap →
    ∀ y, coveredY st.skyline p y → r.y + r.h + gap ≤ y
  dims : ∀ r ∈ st.placed, 0 < r.w ∧ 0 < r.h
  disj : st.placed.Pairwise (fun a b => ¬ inflOverlap gap a b)

end Packer

namespace Packer

/-! ### Basic facts about `spans` -/

theorem covered_iff_coveredY (l : List Seg) (p : ℚ) :
    covered l p ↔ ∃ y, coveredY l p y := by
  constructor
  · rintro ⟨s, hs, h1, h2⟩
    exact ⟨s.y, s, hs, h1, h2, rfl⟩
  · rintro ⟨y, s, hs, h1, h2, _⟩
    exact ⟨s, hs, h1, h2⟩

theorem spans_le : ∀ (l : List Seg) (a b : ℚ), spans a b l → a ≤ b := by
  intro l
  induction l with
  | nil => intro a b h; exact le_of_eq h
  | cons s r ih =>
    intro a b h
    obtain ⟨hx, hw, hr⟩ := h
    have := ih (a + s.w) b hr
    linarith

theorem spans_mem : ∀ (l : List Seg) (a b : ℚ) (s : Seg), spans a b l →
    s ∈ l → a ≤ s.x ∧ s.x + s.w ≤ b ∧ 0 < s.w := by
  intro l
  induction l with
  | nil => intro a b s _ hm; cases hm
  | cons t r ih =>
    intro a b s h hm
    obtain ⟨hx, hw, hr⟩ := h
    rcases List.mem_cons.mp hm with h1 | h1
    · subst h1
      have := spans_le r (a + s.w) b hr
      rw [hx] at *
      exact ⟨le_refl _, by linarith, hw⟩
    · have := ih (a + t.w) b s hr h1
      constructor
      · linarith [this.1]
      · exact this.2

theorem spans_coveredY :
    ∀ (l : List Seg) (a b : ℚ), spans a b l →
      ∀ p, (∃ y, coveredY l p y) ↔ a ≤ p ∧ p < b := by
  intro l
  induction l with
  | nil =>
    intro a b h p
    subst h
    constructor
    · rintro ⟨y, s, hs, -⟩
      cases hs
    · rintro ⟨h1, h2⟩
      exact absurd (lt_of_le_of_lt h1 h2) (lt_irrefl a)
  | cons s r ih =>
    intro a b h p
    obtain ⟨hx, hw, hr⟩ := h
    have hle := spans_le r (a + s.w) b hr
    constructor
    · rintro ⟨y, t, ht, h1, h2, h3⟩
      rcases List.mem_cons.mp ht with he | he
      · subst he
        rw [hx] at h1 h2
        exact ⟨h1, by linarith⟩
      · have := spans_mem r (a + s.w) b t hr he
        exact ⟨by linarith [this.1], by linarith [this.2.1]⟩
    · rintro ⟨h1, h2⟩
      by_cases hp : p < a + s.w
      · exact ⟨s.y, s, List.mem_cons_self s r, by rw [hx]; exact h1,
          by rw [hx]; exact hp, rfl⟩
      · obtain ⟨y, t, ht, hc⟩ := ((ih (a + s.w) b hr p).mpr
          ⟨le_of_not_lt hp, h2⟩)
        exact ⟨y, t, List.mem_cons_of_mem s ht, hc⟩

theorem spans_covered (l : List Seg) (a b : ℚ) (h : spans a b l) (p : ℚ) :
    covered l p ↔ a ≤ p ∧ p < b := by
  rw [covered_iff_coveredY]
  exact spans_coveredY l a b h p

theorem spans_pairwise_lt : ∀ (l : List Seg) (a b : ℚ), spans a b l →
    l.Pairwise (fun s t => s.x < t.x) := by
  intro l
  induction l with
  | nil => intro a b _; exact List.Pairwise.nil
  | cons s r ih =>
    intro a b h
    obtain ⟨hx, hw, hr⟩ := h
    refine List.pairwise_cons.mpr ⟨?_, ih (a + s.w) b hr⟩
    intro t ht
    have := spans_mem r (a + s.w) b t hr ht
    rw [hx]
    linarith [this.1]

theorem spans_pairwise_disj : ∀ (l : List Seg) (a b : ℚ), spans a b l →
    l.Pairwise segDisj := by
  intro l
  induction l with
  | nil => intro a b _; exact List.Pairwise.nil
  | cons s r ih =>
    intro a b h
    obtain ⟨hx, hw, hr⟩ := h
    refine List.pairwise_cons.mpr ⟨?_, ih (a + s.w) b hr⟩
    intro t ht
    have := spans_mem r (a + s.w) b t hr ht
    left
    rw [hx]
    linarith [this.1]

theorem spans_chain : ∀ (l : List Seg) (a b : ℚ), spans a b l →
    l.Chain' (fun s t => s.x + s.w = t.x) := by
  intro l
  induction l with
  | nil => intro a b _; exact List.chain'_nil
  | cons s r ih =>
    intro a b h
    obtain ⟨hx, hw, hr⟩ := h
    cases r with
    | nil => exact List.chain'_singleton s
    | cons t r2 =>
      refine List.chain'_cons.mpr ⟨?_, ih (a + s.w) b hr⟩
      rw [hx, hr.1]

theorem spans_skyline_invariant (l : List Seg) (cw : ℚ) (h : spans 0 cw l) :
    SkylineInvariant cw l :=
  ⟨spans_pairwise_lt l 0 cw h, spans_pairwise_disj l 0 cw h,
   spans_chain l 0 cw h, fun p => spans_covered l 0 cw h p⟩

/-- Reconstruction: a sorted, pairwise-disjoint, positive-width list of
segments covering exactly `[a, b)` satisfies `spans a b`. -/
theorem build_spans : ∀ (l : List Seg) (a b : ℚ), a ≤ b →
    List.Sorted segLe l → l.Pairwise segDisj → (∀ s ∈ l, 0 < s.w) →
    (∀ p, covered l p ↔ a ≤ p ∧ p < b) → spans a b l := by
  intro l
  induction l with
  | nil =>
    intro a b hab _ _ _ hcov
    by_contra hne
    have : a < b := lt_of_le_of_ne hab hne
    obtain ⟨s, hs, -⟩ := (hcov a).mpr ⟨le_refl a, this⟩
    cases hs
  | cons s r ih =>
    intro a b hab hsort hdisj hw hcov
    have hwpos : 0 < s.w := hw s (List.mem_cons_self s r)
    have hax : ∀ t ∈ s :: r, a ≤ t.x := by
      intro t ht
      have htw : 0 < t.w := hw t ht
      have : covered (s :: r) t.x := ⟨t, ht, le_refl _, by linarith⟩
      exact ((hcov t.x).mp this).1
    have hsxa : s.x = a := by
      have hsx : a ≤ s.x := hax s (List.mem_cons_self s r)
      have hslt : s.x < b := by
        have : covered (s :: r) s.x :=
          ⟨s, List.mem_cons_self s r, le_refl _, by linarith⟩
        exact ((hcov s.x).mp this).2
      have halt : a < b := lt_of_le_of_lt hsx hslt
      obtain ⟨t, ht, h1, h2⟩ := (hcov a).mpr ⟨le_refl a, halt⟩
      have hta : t.x = a := le_antisymm h1 (hax t ht)
      rcases List.mem_cons.mp ht with he | he
      · rw [← he, hta]
      · -- t ∈ r covers a; sortedness forces s.x = a too
        have hst : segLe s t := (List.pairwise_cons.mp hsort).1 t he
        unfold segLe at hst
        rw [hta] at hst
        exact le_antisymm hst hsx
    refine ⟨hsxa, hwpos, ?_⟩
    have hseb : a + s.w ≤ b := by
      by_contra hgt
      push_neg at hgt
      have : covered (s :: r) b :=
        ⟨s, List.mem_cons_self s r, by rw [hsxa]; exact hab,
          by rw [hsxa]; exact hgt⟩
      exact absurd ((hcov b).mp this).2 (lt_irrefl b)
    refine ih (a + s.w) b hseb (List.pairwise_cons.mp hsort).2
      (List.pairwise_cons.mp hdisj).2 (fun t ht => hw t (List.mem_cons_of_mem s ht))
      ?_
    intro p
    constructor
    · rintro ⟨t, ht, h1, h2⟩
      have hmem : covered (s :: r) p := ⟨t, List.mem_cons_of_mem s ht, h1, h2⟩
      have hp := (hcov p).mp hmem
      refine ⟨?_, hp.2⟩
      rcases (List.pairwise_cons.mp hdisj).1 t ht with hd | hd
      · rw [hsxa] at hd
        linarith
      · have : 0 < t.w := hw t (List.mem_cons_of_mem s ht)
        rw [hsxa] at hd
        linarith [hax t (List.mem_cons_of_mem s ht)]
    · rintro ⟨h1, h2⟩
      obtain ⟨t, ht, hc1, hc2⟩ := (hcov p).mpr ⟨by linarith, h2⟩
      rcases List.mem_cons.mp ht with he | he
      · subst he
        rw [hsxa] at hc2
        linarith
      · exact ⟨t, he, hc1, hc2⟩

/-! ### Facts about `splitSegs` -/

theorem splitSegs_cons (x rEnd : ℚ) (s : Seg) (r : List Seg) :
    splitSegs x rEnd (s :: r) = splitSegs x rEnd [s] ++ splitSegs x rEnd r := by
  simp [splitSegs]

theorem splitSegs_mem (x rEnd : ℚ) :
    ∀ (l : List Seg) (s' : Seg), s' ∈ splitSegs x rEnd l →
      ∃ s ∈ l, s'.y = s.y ∧ s.x ≤ s'.x ∧ s'.x + s'.w ≤ s.x + s.w ∧
        (s'.x + s'.w ≤ x ∨ rEnd ≤ s'.x) ∧ (0 < s.w → 0 < s'.w) := by
  intro l
  induction l with
  | nil => intro s' h; cases h
  | cons s r ih =>
    intro s' h
    rw [splitSegs_cons] at h
    rcases List.mem_append.mp h with h1 | h1
    · -- s' is a piece of s
      simp only [splitSegs, List.flatMap, List.map, List.flatten] at h1
      refine ⟨s, List.mem_cons_self s r, ?_⟩
      split_ifs at h1 with hkeep hleft hright hright
      · simp only [List.append_nil] at h1
        rcases List.mem_singleton.mp h1 with he
        subst he
        exact ⟨rfl, le_refl _, le_refl _, hkeep, fun h => h⟩
      · -- both remainders
        push_neg at hkeep
        simp only [List.append_nil] at h1
        rcases List.mem_append.mp h1 with h2 | h2 <;>
          rcases List.mem_singleton.mp h2 with he <;> subst he
        · exact ⟨rfl, le_refl _, by simp <;> linarith [hkeep.1], Or.inl (by simp),
            fun _ => by simp <;> linarith⟩
        · exact ⟨rfl, by simp <;> linarith [hkeep.2], by simp,
            Or.inr (by simp), fun _ => by simp <;> linarith⟩
      · -- left remainder only
        push_neg at hkeep
        simp only [List.append_nil] at h1
        rcases List.mem_singleton.mp h1 with he
        subst he
        exact ⟨rfl, le_refl _, by simp <;> linarith [hkeep.1], Or.inl (by simp),
          fun _ => by simp <;> linarith⟩
      · -- right remainder only
        push_neg at hkeep
        simp only [List.append_nil, List.nil_append] at h1
        rcases List.mem_singleton.mp h1 with he
        subst he
        exact ⟨rfl, by simp <;> linarith [hkeep.2], by simp,
          Or.inr (by simp), fun _ => by simp <;> linarith⟩
      · simp at h1
    · obtain ⟨s0, hs0, hrest⟩ := ih s' h1
      exact ⟨s0, List.mem_cons_of_mem s hs0, hrest⟩

theorem coveredY_append (l₁ l₂ : List Seg) (p y : ℚ) :
    coveredY (l₁ ++ l₂) p y ↔ coveredY l₁ p y ∨ coveredY l₂ p y := by
  constructor
  · rintro ⟨s, hs, hc⟩
    rcases List.mem_append.mp hs with h | h
    · exact Or.inl ⟨s, h, hc⟩
    · exact Or.inr ⟨s, h, hc⟩
  · rintro (⟨s, hs, hc⟩ | ⟨s, hs, hc⟩)
    · exact ⟨s, List.mem_append_left _ hs, hc⟩
    · exact ⟨s, List.mem_append_right _ hs, hc⟩

theorem splitSegs_coveredY (x rEnd : ℚ) :
    ∀ (l : List Seg) (p y : ℚ),
      coveredY (splitSegs x rEnd l) p y ↔
        coveredY l p y ∧ ¬(x ≤ p ∧ p < rEnd) := by
  intro l
  induction l with
  | nil =>
    intro p y
    constructor
    · rintro ⟨s, hs, -⟩; cases hs
    · rintro ⟨⟨s, hs, -⟩, -⟩; cases hs
  | cons s r ih =>
    intro p y
    constructor
    · rintro ⟨s', hs', h1, h2, h3⟩
      obtain ⟨s0, hs0, hy, hl, hr, havoid, -⟩ :=
        splitSegs_mem x rEnd (s :: r) s' hs'
      refine ⟨⟨s0, hs0, by linarith, by linarith, h3.trans hy⟩, ?_⟩
      rcases havoid with h | h
      · intro hc; linarith [hc.1]
      · intro hc; linarith [hc.2]
    · rintro ⟨⟨t, ht, h1, h2, h3⟩, hout⟩
      rw [splitSegs_cons, coveredY_append]
      rcases List.mem_cons.mp ht with he | he
      · subst he
        left
        have hout2 : p < x ∨ rEnd ≤ p := by
          by_cases hpx : p < x
          · exact Or.inl hpx
          · right
            by_contra hpr
            exact hout ⟨le_of_not_lt hpx, lt_of_not_le hpr⟩
        simp only [splitSegs, List.flatMap, List.map, List.flatten,
          List.append_nil]
        split_ifs with hkeep hleft hright hright
        · exact ⟨t, List.mem_singleton_self t, h1, h2, h3⟩
        · push_neg at hkeep
          rcases hout2 with hp | hp
          · refine ⟨Seg.mk t.x t.y (x - t.x), List.mem_append_left _
              (List.mem_singleton_self _), h1, by simpa using hp, by simpa using h3⟩
          · refine ⟨Seg.mk rEnd t.y (t.x + t.w - rEnd), List.mem_append_right _
              (List.mem_singleton_self _), by simpa using hp,
              by simp <;> linarith, by simpa using h3⟩
        · push_neg at hkeep
          rcases hout2 with hp | hp
          · exact ⟨Seg.mk t.x t.y (x - t.x), List.mem_singleton_self _,
              h1, by simpa using hp, by simpa using h3⟩
          · exact absurd h2 (not_lt.mpr (by linarith [not_lt.mp hright]))
        · push_neg at hkeep
          rcases hout2 with hp | hp
          · exact absurd (lt_of_le_of_lt h1 hp) (not_lt.mpr (not_lt.mp hleft))
          · refine ⟨Seg.mk rEnd t.y (t.x + t.w - rEnd),
              by simp, by simpa using hp, by simp <;> linarith, by simpa using h3⟩
        · push_neg at hkeep
          rcases hout2 with hp | hp
          · exact absurd (lt_of_le_of_lt h1 hp) (not_lt.mpr (not_lt.mp hleft))
          · exact absurd h2 (not_lt.mpr (by linarith [not_lt.mp hright]))
      · right
        exact (ih p y).mpr ⟨⟨t, he, h1, h2, h3⟩, hout⟩

theorem splitSegs_disj (x rEnd : ℚ) (hxr : x ≤ rEnd) :
    ∀ (l : List Seg), l.Pairwise segDisj →
      (splitSegs x rEnd l).Pairwise segDisj := by
  intro l
  induction l with
  | nil => intro _; exact List.Pairwise.nil
  | cons s r ih =>
    intro h
    have hs := List.pairwise_cons.mp h
    rw [splitSegs_cons]
    refine List.pairwise_append.mpr ⟨?_, ih hs.2, ?_⟩
    · simp only [splitSegs, List.flatMap, List.map, List.flatten,
        List.append_nil]
      split_ifs with h1 h2 h3 h3
      · exact List.pairwise_singleton _ _
      · refine List.pairwise_cons.mpr ⟨?_, List.pairwise_singleton _ _⟩
        intro b hb
        rcases List.mem_singleton.mp hb with he
        subst he
        left
        show s.x + (x - s.x) ≤ rEnd
        linarith
      · exact List.pairwise_singleton _ _
      · simp only [List.nil_append]
        exact List.pairwise_singleton _ _
      · exact List.Pairwise.nil
    · intro a ha b hb
      obtain ⟨sa, hsa, _, hal, har, _, _⟩ := splitSegs_mem x rEnd [s] a ha
      rcases List.mem_singleton.mp hsa with he
      subst he
      obtain ⟨tb, htb, _, hbl, hbr, _, _⟩ := splitSegs_mem x rEnd r b hb
      rcases hs.1 tb htb with hd | hd
      · left; linarith
      · right; linarith

/-! ### Transfer along permutations and the sort -/

theorem coveredY_of_perm {l l' : List Seg} (h : l.Perm l') (p y : ℚ) :
    coveredY l p y ↔ coveredY l' p y := by
  constructor <;> rintro ⟨s, hs, hc⟩
  · exact ⟨s, h.mem_iff.mp hs, hc⟩
  · exact ⟨s, h.mem_iff.mpr hs, hc⟩

theorem sortByX_perm (l : List Seg) : (sortByX l).Perm l :=
  List.perm_insertionSort _ l

theorem sortByX_sorted (l : List Seg) : List.Sorted segLe (sortByX l) :=
  List.sorted_insertionSort _ l

/-! ### Facts about `mergeInto` / `mergeSkyline` -/

theorem int_close_eq {x y : ℚ} (hx : ∃ m : ℤ, x = m) (hy : ∃ n : ℤ, y = n)
    (h : |x - y| < 1/2) : x = y := by
  obtain ⟨m, rfl⟩ := hx
  obtain ⟨n, rfl⟩ := hy
  by_contra hne
  have hmn : m ≠ n := fun he => hne (by rw [he])
  have h1 : (1 : ℤ) ≤ |m - n| := Int.one_le_abs (sub_ne_zero.mpr hmn)
  have h2 : (1 : ℚ) ≤ |(m : ℚ) - n| := by exact_mod_cast h1
  linarith

theorem coveredY_cons (s : Seg) (l : List Seg) (p y : ℚ) :
    coveredY (s :: l) p y ↔
      (s.x ≤ p ∧ p < s.x + s.w ∧ y = s.y) ∨ coveredY l p y := by
  constructor
  · rintro ⟨t, ht, hc⟩
    rcases List.mem_cons.mp ht with he | he
    · subst he; exact Or.inl hc
    · exact Or.inr ⟨t, he, hc⟩
  · rintro (hc | ⟨t, ht, hc⟩)
    · exact ⟨s, List.mem_cons_self s l, hc⟩
    · exact ⟨t, List.mem_cons_of_mem s ht, hc⟩

theorem mergeInto_spans : ∀ (r : List Seg) (s : Seg) (a b : ℚ),
    spans a b (s :: r) → spans a b (mergeInto s r) := by
  intro r
  induction r with
  | nil => intro s a b h; exact h
  | cons t r2 ih =>
    intro s a b h
    obtain ⟨hx, hw, ht, htw, hr⟩ := h
    unfold mergeInto
    split
    · refine ih _ a b ⟨hx, show (0:ℚ) < s.w + t.w by linarith, ?_⟩
      show spans (a + (s.w + t.w)) b r2
      rw [← add_assoc]
      exact hr
    · exact ⟨hx, hw, ih t (a + s.w) b ⟨ht, htw, hr⟩⟩

theorem mergeInto_ys : ∀ (r : List Seg) (s : Seg) (u : Seg),
    u ∈ mergeInto s r → ∃ v ∈ s :: r, u.y = v.y := by
  intro r
  induction r with
  | nil =>
    intro s u hu
    rcases List.mem_singleton.mp hu with he
    subst he
    exact ⟨u, List.mem_singleton_self u, rfl⟩
  | cons t r2 ih =>
    intro s u hu
    unfold mergeInto at hu
    split at hu
    · obtain ⟨v, hv, hy⟩ := ih _ u hu
      rcases List.mem_cons.mp hv with he | he
      · subst he
        exact ⟨s, List.mem_cons_self _ _, hy⟩
      · exact ⟨v, by simp [List.mem_cons, he], hy⟩
    · rcases List.mem_cons.mp hu with he | he
      · subst he
        exact ⟨u, List.mem_cons_self _ _, rfl⟩
      · obtain ⟨v, hv, hy⟩ := ih t u he
        rcases List.mem_cons.mp hv with he2 | he2
        · subst he2
          exact ⟨v, by simp [List.mem_cons], hy⟩
        · exact ⟨v, by simp [List.mem_cons, he2], hy⟩

theorem mergeInto_coveredY : ∀ (r : List Seg) (s : Seg) (a b : ℚ),
    spans a b (s :: r) → (∀ v ∈ s :: r, ∃ n : ℤ, v.y = n) →
    ∀ p y, coveredY (mergeInto s r) p y ↔ coveredY (s :: r) p y := by
  intro r
  induction r with
  | nil => intro s a b _ _ p y; exact Iff.rfl
  | cons t r2 ih =>
    intro s a b h hint p y
    obtain ⟨hx, hw, ht, htw, hr⟩ := h
    unfold mergeInto
    split
    · rename_i hm
      have hys : s.y = t.y :=
        int_close_eq (hint s (by simp)) (hint t (by simp)) hm.1
      have hsp2 : spans a b (Seg.mk s.x s.y (s.w + t.w) :: r2) := by
        refine ⟨hx, show (0:ℚ) < s.w + t.w by linarith, ?_⟩
        show spans (a + (s.w + t.w)) b r2
        rw [← add_assoc]
        exact hr
      have hint2 : ∀ v ∈ Seg.mk s.x s.y (s.w + t.w) :: r2, ∃ n : ℤ, v.y = n := by
        intro v hv
        rcases List.mem_cons.mp hv with he | he
        · subst he
          exact hint s (by simp)
        · exact hint v (by simp [List.mem_cons, he])
      rw [ih _ a b hsp2 hint2 p y, coveredY_cons, coveredY_cons, coveredY_cons]
      constructor
      · rintro (⟨h1, h2, h3⟩ | hc)
        · simp only at h1 h2 h3
          by_cases hp : p < s.x + s.w
          · exact Or.inl ⟨h1, hp, h3⟩
          · refine Or.inr (Or.inl ⟨?_, ?_, by rw [h3, hys]⟩)
            · rw [ht, ← hx]; linarith
            · rw [ht, ← hx]; linarith
        · exact Or.inr (Or.inr hc)
      · rintro (⟨h1, h2, h3⟩ | ⟨h1, h2, h3⟩ | hc)
        · exact Or.inl ⟨h1, by simp; linarith, h3⟩
        · refine Or.inl ⟨?_, ?_, by rw [h3, hys]⟩
          · simp only
            rw [ht, ← hx] at h1
            linarith
          · simp only
            rw [ht, ← hx] at h2
            linarith
        · exact Or.inr hc
    · rw [coveredY_cons, coveredY_cons,
        ih t (a + s.w) b ⟨ht, htw, hr⟩
          (fun v hv => hint v (List.mem_cons_of_mem s hv)) p y]

theorem mergeSkyline_spans (l : List Seg) (a b : ℚ) (h : spans a b l) :
    spans a b (mergeSkyline l) := by
  cases l with
  | nil => exact h
  | cons s r => exact mergeInto_spans r s a b h

theorem mergeSkyline_ys (l : List Seg) (u : Seg) (hu : u ∈ mergeSkyline l) :
    ∃ v ∈ l, u.y = v.y := by
  cases l with
  | nil => cases hu
  | cons s r => exact mergeInto_ys r s u hu

theorem mergeSkyline_coveredY (l : List Seg) (a b : ℚ) (h : spans a b l)
    (hint : ∀ v ∈ l, ∃ n : ℤ, v.y = n) (p y : ℚ) :
    coveredY (mergeSkyline l) p y ↔ coveredY l p y := by
  cases l with
  | nil => exact Iff.rfl
  | cons s r => exact mergeInto_coveredY r s a b h hint p y

/-! ### The `addRect` update -/

theorem segDisj_symm {s t : Seg} (h : segDisj s t) : segDisj t s :=
  h.symm

theorem addRect_out_coveredY (sky : List Seg) (x y w h p yy : ℚ) :
    coveredY (sortByX (splitSegs x (x + w) sky ++ [Seg.mk x (y + h) w])) p yy ↔
      ((x ≤ p ∧ p < x + w) ∧ yy = y + h) ∨
      (¬(x ≤ p ∧ p < x + w) ∧ coveredY sky p yy) := by
  rw [coveredY_of_perm (sortByX_perm _) p yy, coveredY_append,
    splitSegs_coveredY]
  constructor
  · rintro (⟨h1, h2⟩ | ⟨s, hs, h1, h2, h3⟩)
    · exact Or.inr ⟨h2, h1⟩
    · rcases List.mem_singleton.mp hs with he
      subst he
      exact Or.inl ⟨⟨h1, by simpa using h2⟩, h3⟩
  · rintro (⟨⟨h1, h2⟩, h3⟩ | ⟨h1, h2⟩)
    · exact Or.inr ⟨Seg.mk x (y + h) w, List.mem_singleton_self _, h1,
        by simpa using h2, h3⟩
    · exact Or.inl ⟨h2, h1⟩

theorem addRect_out_spans (sky : List Seg) (cw x y w h : ℚ)
    (hsp : spans 0 cw sky) (hx : 0 ≤ x) (hxw : x + w ≤ cw) (hw : 0 < w) :
    spans 0 cw (sortByX (splitSegs x (x + w) sky ++ [Seg.mk x (y + h) w])) := by
  have hperm := sortByX_perm (splitSegs x (x + w) sky ++ [Seg.mk x (y + h) w])
  refine build_spans _ 0 cw (spans_le sky 0 cw hsp) (sortByX_sorted _) ?_ ?_ ?_
  · -- pairwise disjoint
    refine (hperm.pairwise_iff (fun hd => segDisj_symm hd)).mpr ?_
    refine List.pairwise_append.mpr
      ⟨splitSegs_disj x (x + w) (by linarith) sky
          (spans_pairwise_disj sky 0 cw hsp),
        List.pairwise_singleton _ _, ?_⟩
    intro a ha b hb
    rcases List.mem_singleton.mp hb with he
    subst he
    obtain ⟨sa, _, _, _, _, havoid, _⟩ := splitSegs_mem x (x + w) sky a ha
    rcases havoid with hv | hv
    · exact Or.inl hv
    · exact Or.inr (by simpa using hv)
  · -- positive widths
    intro s' hs'
    rcases List.mem_append.mp (hperm.mem_iff.mp hs') with hm | hm
    · obtain ⟨s0, hs0, _, _, _, _, hwid⟩ := splitSegs_mem x (x + w) sky s' hm
      exact hwid (spans_mem sky 0 cw s0 hsp hs0).2.2
    · rcases List.mem_singleton.mp hm with he
      subst he
      exact hw
  · -- coverage is exactly [0, cw)
    intro p
    rw [covered_iff_coveredY]
    constructor
    · rintro ⟨yy, hyy⟩
      rcases (addRect_out_coveredY sky x y w h p yy).mp hyy with
        ⟨⟨h1, h2⟩, _⟩ | ⟨_, hc⟩
      · exact ⟨by linarith, by linarith⟩
      · have := (spans_coveredY sky 0 cw hsp p).mp ⟨yy, hc⟩
        exact this
    · rintro ⟨h1, h2⟩
      by_cases hin : x ≤ p ∧ p < x + w
      · exact ⟨y + h, (addRect_out_coveredY sky x y w h p (y + h)).mpr
          (Or.inl ⟨hin, rfl⟩)⟩
      · obtain ⟨yy, hyy⟩ := (spans_coveredY sky 0 cw hsp p).mpr ⟨h1, h2⟩
        exact ⟨yy, (addRect_out_coveredY sky x y w h p yy).mpr
          (Or.inr ⟨hin, hyy⟩)⟩

theorem addRect_spans (sky : List Seg) (cw x y w h : ℚ)
    (hsp : spans 0 cw sky) (hx : 0 ≤ x) (hxw : x + w ≤ cw) (hw : 0 < w) :
    spans 0 cw (addRect x y w h sky) :=
  mergeSkyline_spans _ 0 cw (addRect_out_spans sky cw x y w h hsp hx hxw hw)

theorem addRect_ys (sky : List Seg) (x y w h : ℚ) (u : Seg)
    (hu : u ∈ addRect x y w h sky) :
    (∃ v ∈ sky, u.y = v.y) ∨ u.y = y + h := by
  obtain ⟨v, hv, hy⟩ := mergeSkyline_ys _ u hu
  rcases List.mem_append.mp ((sortByX_perm _).mem_iff.mp hv) with hm | hm
  · obtain ⟨s0, hs0, hy0, _⟩ := splitSegs_mem x (x + w) sky v hm
    exact Or.inl ⟨s0, hs0, hy.trans hy0⟩
  · rcases List.mem_singleton.mp hm with he
    subst he
    exact Or.inr hy

theorem addRect_coveredY (sky : List Seg) (cw x y w h : ℚ)
    (hsp : spans 0 cw sky) (hx : 0 ≤ x) (hxw : x + w ≤ cw) (hw : 0 < w)
    (hint : ∀ s ∈ sky, ∃ n : ℤ, s.y = n) (hyh : ∃ n : ℤ, y + h = n)
    (p yy : ℚ) :
    coveredY (addRect x y w h sky) p yy ↔
      ((x ≤ p ∧ p < x + w) ∧ yy = y + h) ∨
      (¬(x ≤ p ∧ p < x + w) ∧ coveredY sky p yy) := by
  have hint1 : ∀ v ∈ sortByX (splitSegs x (x + w) sky ++ [Seg.mk x (y + h) w]),
      ∃ n : ℤ, v.y = n := by
    intro v hv
    rcases List.mem_append.mp ((sortByX_perm _).mem_iff.mp hv) with hm | hm
    · obtain ⟨s0, hs0, hy0, _⟩ := splitSegs_mem x (x + w) sky v hm
      obtain ⟨n, hn⟩ := hint s0 hs0
      exact ⟨n, hy0.trans hn⟩
    · rcases List.mem_singleton.mp hm with he
      subst he
      exact hyh
  unfold addRect
  rw [mergeSkyline_coveredY _ 0 cw
    (addRect_out_spans sky cw x y w h hsp hx hxw hw) hint1 p yy]
  exact addRect_out_coveredY sky x y w h p yy

/-! ### The `findPosition` search -/

theorem spans_append : ∀ (l1 l2 : List Seg) (a b : ℚ),
    spans a b (l1 ++ l2) → ∃ c, spans a c l1 ∧ spans c b l2 := by
  intro l1
  induction l1 with
  | nil => intro l2 a b h; exact ⟨a, rfl, h⟩
  | cons s r ih =>
    intro l2 a b h
    obtain ⟨hx, hw, hr⟩ := h
    obtain ⟨c, h1, h2⟩ := ih l2 (a + s.w) b hr
    exact ⟨c, ⟨hx, hw, h1⟩, h2⟩

theorem coverScan_zero (r : List Seg) (x rem y : ℚ) (h : rem ≤ 0) :
    coverScan r x rem y = some y := by
  cases r <;> simp [coverScan, if_pos h]

theorem coverScan_facts : ∀ (r : List Seg) (x rem y b Y : ℚ),
    spans x b r → coverScan r x rem y = some Y →
    y ≤ Y ∧ (Y = y ∨ ∃ s ∈ r, Y = s.y) ∧
      (∀ s ∈ r, s.x < x + rem → s.y ≤ Y) := by
  intro r
  induction r with
  | nil =>
    intro x rem y b Y _ h
    rw [coverScan] at h
    split at h
    · cases h
      exact ⟨le_refl _, Or.inl rfl, fun s hs _ => absurd hs (List.not_mem_nil s)⟩
    · cases h
  | cons seg r2 ih =>
    intro x rem y b Y hsp h
    obtain ⟨hx, hw, hr⟩ := hsp
    rw [coverScan] at h
    split at h
    · -- remaining ≤ 0 on entry
      rename_i hrem
      cases h
      refine ⟨le_refl _, Or.inl rfl, ?_⟩
      intro s hs hlt
      rcases List.mem_cons.mp hs with he | he
      · subst he
        exact absurd hlt (by rw [hx]; linarith)
      · have := spans_mem r2 (x + seg.w) b s hr he
        exact absurd hlt (by linarith [this.1])
    · split at h
      · cases h
      · -- scanning the head segment
        rename_i hrem hgap
        have hconsume : seg.x + seg.w - x = seg.w := by rw [hx]; ring
        rw [hconsume] at h
        by_cases hc : rem ≤ seg.w
        · rw [min_eq_left hc] at h
          rw [coverScan_zero r2 (x + rem) (rem - rem) (max y seg.y)
            (by linarith)] at h
          cases h
          refine ⟨le_max_left _ _, ?_, ?_⟩
          · rcases max_choice y seg.y with hm | hm
            · exact Or.inl hm
            · exact Or.inr ⟨seg, List.mem_cons_self _ _, hm⟩
          · intro s hs hlt
            rcases List.mem_cons.mp hs with he | he
            · subst he
              exact le_max_right _ _
            · have := spans_mem r2 (x + seg.w) b s hr he
              exact absurd hlt (by linarith [this.1])
        · push_neg at hc
          rw [min_eq_right (le_of_lt hc)] at h
          obtain ⟨ih1, ih2, ih3⟩ := ih (x + seg.w) (rem - seg.w) (max y seg.y)
            b Y hr h
          refine ⟨le_trans (le_max_left _ _) ih1, ?_, ?_⟩
          · rcases ih2 with he | ⟨s, hs, hy⟩
            · rcases max_choice y seg.y with hm | hm
              · exact Or.inl (he.trans hm)
              · exact Or.inr ⟨seg, List.mem_cons_self _ _, he.trans hm⟩
            · exact Or.inr ⟨s, List.mem_cons_of_mem seg hs, hy⟩
          · intro s hs hlt
            rcases List.mem_cons.mp hs with he | he
            · subst he
              exact le_trans (le_max_right _ _) ih1
            · exact ih3 s he (by linarith)

theorem betterPos_cases (best : Option Pos) (cand q : Pos)
    (h : betterPos best cand = some q) : q = cand ∨ best = some q := by
  cases best with
  | none =>
    rw [show betterPos none cand = some cand from rfl] at h
    cases h
    exact Or.inl rfl
  | some b =>
    rw [show betterPos (some b) cand =
        if cand.y < b.y - 1/2 then some cand
        else if |cand.y - b.y| < 1/2 ∧ cand.x < b.x then some cand
        else some b from rfl] at h
    split_ifs at h <;> cases h
    · exact Or.inl rfl
    · exact Or.inl rfl
    · exact Or.inr rfl

theorem findGo_valid (cw w : ℚ) (sky : List Seg) (b : ℚ)
    (hsky : spans 0 b sky) :
    ∀ (r l1 : List Seg) (best : Option Pos) (pos : Pos), sky = l1 ++ r →
      (∀ q, best = some q → ValidPos cw w sky q) →
      findGo cw w r best = some pos → ValidPos cw w sky pos := by
  intro r
  induction r with
  | nil =>
    intro l1 best pos _ hbest h
    rw [findGo] at h
    exact hbest pos h
  | cons seg r2 ih =>
    intro l1 best pos heq hbest h
    rw [findGo] at h
    refine ih (l1 ++ [seg]) _ pos (by rw [heq, List.append_assoc]; rfl) ?_ h
    intro q hq
    split at hq
    · exact hbest q hq
    · split at hq
      · exact hbest q hq
      · rename_i hfit hscanY Y hscan
        rcases betterPos_cases best (Pos.mk seg.x Y) q hq with hc | hc
        · subst hc
          obtain ⟨c, hspl1, hsps⟩ := spans_append l1 (seg :: r2) 0 b
            (by rw [← heq]; exact hsky)
          have hcx : seg.x = c := hsps.1
          have hsegmem : seg ∈ sky := by
            rw [heq]
            exact List.mem_append_right l1 (List.mem_cons_self _ _)
          obtain ⟨hY1, hY2, hY3⟩ := coverScan_facts (seg :: r2) seg.x w seg.y
            b Y (by rw [hcx]; exact hsps) hscan
          refine ⟨⟨seg, hsegmem, rfl⟩, by push_neg at hfit; exact hfit, ?_, ?_⟩
          · rcases hY2 with he | ⟨s, hs, hy⟩
            · exact ⟨seg, hsegmem, he⟩
            · refine ⟨s, ?_, hy⟩
              rw [heq]
              exact List.mem_append_right l1 hs
          · intro p yy h1 h2 hcov
            obtain ⟨s, hs, hc1, hc2, hc3⟩ := hcov
            rcases List.mem_append.mp (by rw [← heq]; exact hs) with hm | hm
            · -- the covering node is left of the candidate: impossible
              have := spans_mem l1 0 c s hspl1 hm
              simp only at h1 h2
              rw [← hcx] at this
              exact absurd hc2 (by linarith [this.2.1])
            · rw [hc3]
              exact hY3 s hm (by simp only at h1 h2 ⊢; linarith)
        · exact hbest q hc

theorem findPosition_valid (cw w h : ℚ) (sky : List Seg) (b : ℚ)
    (hsky : spans 0 b sky) (pos : Pos)
    (hfind : findPosition cw w h sky = some pos) : ValidPos cw w sky pos :=
  findGo_valid cw w sky b hsky sky [] none pos rfl
    (fun q hq => by cases hq) hfind

/-! ### The packing loop: skyline preservation (claim C1) -/

theorem choosePos_bounds (cw pw ph : ℚ) (sky : List Seg) (mb : ℚ)
    (hsp : spans 0 cw sky) (hpw : pw ≤ cw) :
    0 ≤ ((findPosition cw pw ph sky).getD (Pos.mk 0 mb)).x ∧
    ((findPosition cw pw ph sky).getD (Pos.mk 0 mb)).x + pw ≤ cw := by
  cases hf : findPosition cw pw ph sky with
  | none =>
    simp only [Option.getD_none]
    exact ⟨le_refl _, by simpa using hpw⟩
  | some p =>
    obtain ⟨⟨s, hs, hx⟩, hfit, -, -⟩ :=
      findPosition_valid cw pw ph sky cw hsp p hf
    simp only [Option.getD_some]
    exact ⟨by rw [hx]; linarith [(spans_mem sky 0 cw s hsp hs).1], hfit⟩

theorem packStep_spans (cw gap : ℚ) (sz : ℚ × ℚ) (st : PackState)
    (hcw : 0 < cw) (hgap : 0 ≤ gap) (hw : 0 < sz.1)
    (hsp : spans 0 cw st.skyline) :
    spans 0 cw (packStep cw gap st sz).skyline := by
  have hpw1 : 0 < min (sz.1 + gap) cw := lt_min (by linarith) hcw
  have hb := choosePos_bounds cw (min (sz.1 + gap) cw) (sz.2 + gap)
    st.skyline st.maxBottom hsp (min_le_right _ _)
  exact addRect_spans st.skyline cw _ _ _ _ hsp hb.1 hb.2 hpw1

theorem foldl_packStep_spans (cw gap : ℚ) (hcw : 0 < cw) (hgap : 0 ≤ gap) :
    ∀ (sizes : List (ℚ × ℚ)) (st : PackState), spans 0 cw st.skyline →
      (∀ p ∈ sizes, 0 < p.1) →
      spans 0 cw (sizes.foldl (packStep cw gap) st).skyline := by
  intro sizes
  induction sizes with
  | nil => intro st h _; exact h
  | cons sz r ih =>
    intro st h hsz
    rw [List.foldl_cons]
    exact ih (packStep cw gap st sz)
      (packStep_spans cw gap sz st hcw hgap (hsz sz (by simp)) h)
      (fun p hp => hsz p (by simp [hp]))

theorem packAll_spans (cw gap : ℚ) (sizes : List (ℚ × ℚ))
    (hcw : 0 < cw) (hgap : 0 ≤ gap) (hsz : ∀ p ∈ sizes, 0 < p.1) :
    spans 0 cw (packAll cw gap sizes).skyline := by
  have hinit : spans 0 cw [Seg.mk 0 0 cw] :=
    ⟨rfl, hcw, show (0 : ℚ) + cw = cw by ring⟩
  exact foldl_packStep_spans cw gap hcw hgap sizes _ hinit hsz

theorem tileDims_w_pos {area minW maxW minH maxH ar w h : ℚ}
    (hd : tileDims area minW maxW minH maxH ar w h) (hminW : 0 < minW) :
    0 < w := by
  obtain ⟨s, -, -, hw, -⟩ := hd
  rw [hw]
  exact lt_of_lt_of_le hminW (le_max_left _ _)

theorem tileDims_h_pos {area minW maxW minH maxH ar w h : ℚ}
    (hd : tileDims area minW maxW minH maxH ar w h) (hminH : 0 < minH) :
    0 < h := by
  obtain ⟨s, -, -, -, hh⟩ := hd
  rw [hh]
  exact lt_of_lt_of_le hminH (le_max_left _ _)

/-- **C1**: for every tile list whose sizes arise from the source's sizing
step (any aspect ratios, any positive lower width bound), every container
width and gap for which packing runs, and after every tile placement (every
prefix of the list), the skyline is sorted by `x`, pairwise non-overlapping,
contiguous, and spans exactly `[0, containerWidth)`. -/
theorem skyline_invariant_holds (cw gap area minW maxW minH maxH : ℚ)
    (sizes : List (ℚ × ℚ)) (hcw : 0 < cw) (hgap : 0 ≤ gap) (hminW : 0 < minW)
    (hdims : ∀ sz ∈ sizes, ∃ ar,
      tileDims area minW maxW minH maxH ar sz.1 sz.2)
    (pre suf : List (ℚ × ℚ)) (hsplit : sizes = pre ++ suf) :
    SkylineInvariant cw (packAll cw gap pre).skyline := by
  have hw : ∀ p ∈ pre, 0 < p.1 := by
    intro p hp
    obtain ⟨ar, hd⟩ := hdims p (by rw [hsplit]; exact List.mem_append_left _ hp)
    exact tileDims_w_pos hd hminW
  exact spans_skyline_invariant _ cw (packAll_spans cw gap pre hcw hgap hw)

/-! ### The packing loop: containment and gap-separation (claim C2) -/

theorem choosePos_facts (cw pw ph : ℚ) (sky : List Seg) (mb : ℚ)
    (hsp : spans 0 cw sky) (hint : ∀ s ∈ sky, ∃ n : ℤ, s.y = n)
    (hynn : ∀ s ∈ sky, 0 ≤ s.y) (hymb : ∀ s ∈ sky, s.y ≤ mb)
    (hmbInt : ∃ n : ℤ, mb = n) (hmbnn : 0 ≤ mb) :
    (∃ n : ℤ, ((findPosition cw pw ph sky).getD (Pos.mk 0 mb)).y = n) ∧
    0 ≤ ((findPosition cw pw ph sky).getD (Pos.mk 0 mb)).y ∧
    ((findPosition cw pw ph sky).getD (Pos.mk 0 mb)).y ≤ mb ∧
    (∀ p yy, ((findPosition cw pw ph sky).getD (Pos.mk 0 mb)).x ≤ p →
      p < ((findPosition cw pw ph sky).getD (Pos.mk 0 mb)).x + pw →
      coveredY sky p yy →
      yy ≤ ((findPosition cw pw ph sky).getD (Pos.mk 0 mb)).y) := by
  cases hf : findPosition cw pw ph sky with
  | none =>
    simp only [Option.getD_none]
    refine ⟨hmbInt, hmbnn, le_refl _, ?_⟩
    rintro p yy _ _ ⟨s, hs, _, _, hy⟩
    rw [hy]
    exact hymb s hs
  | some p =>
    obtain ⟨-, -, ⟨s, hs, hy⟩, hclear⟩ :=
      findPosition_valid cw pw ph sky cw hsp p hf
    simp only [Option.getD_some]
    obtain ⟨n, hn⟩ := hint s hs
    exact ⟨⟨n, hy.trans hn⟩, hy ▸ hynn s hs, hy ▸ hymb s hs, hclear⟩

theorem step_inv_core (cw gap w h : ℚ) (st : PackState) (pos : Pos)
    (hcw : 0 < cw) (hgap : 0 ≤ gap) (hw : 0 < w) (hh : 0 < h)
    (hintH : ∃ n : ℤ, h + gap = n) (inv : PackInv cw gap st)
    (hb1 : 0 ≤ pos.x) (hb2 : pos.x + (w + gap) ≤ cw)
    (hyInt : ∃ n : ℤ, pos.y = n) (hynnP : 0 ≤ pos.y)
    (hymbP : pos.y ≤ st.maxBottom)
    (hclear : ∀ p yy, pos.x ≤ p → p < pos.x + (w + gap) →
      coveredY st.skyline p yy → yy ≤ pos.y) :
    PackInv cw gap
      (PackState.mk (addRect pos.x pos.y (w + gap) (h + gap) st.skyline)
        (max st.maxBottom (pos.y + (h + gap)))
        (st.placed ++ [Rect.mk pos.x pos.y w h])) := by
  have hpw : 0 < w + gap := by linarith
  have hintNewY : ∃ n : ℤ, pos.y + (h + gap) = n := by
    obtain ⟨n1, h1⟩ := hyInt
    obtain ⟨n2, h2⟩ := hintH
    exact ⟨n1 + n2, by rw [h1, h2]; push_cast; ring⟩
  have covY := addRect_coveredY st.skyline cw pos.x pos.y (w + gap) (h + gap)
    inv.hsp hb1 hb2 hpw inv.intY hintNewY
  have hcovp : ∀ p : ℚ, 0 ≤ p → p < cw → ∃ zz, coveredY st.skyline p zz :=
    fun p h1 h2 => (spans_coveredY st.skyline 0 cw inv.hsp p).mpr ⟨h1, h2⟩
  refine ⟨?_, ?_, ?_, ?_, ?_, ?_, ?_, ?_, ?_, ?_, ?_⟩
  · exact addRect_spans st.skyline cw pos.x pos.y (w + gap) (h + gap)
      inv.hsp hb1 hb2 hpw
  · intro u hu
    rcases addRect_ys st.skyline pos.x pos.y (w + gap) (h + gap) u hu with
      ⟨v, hv, hy⟩ | hy
    · obtain ⟨n, hn⟩ := inv.intY v hv
      exact ⟨n, hy.trans hn⟩
    · exact hy ▸ hintNewY
  · intro u hu
    rcases addRect_ys st.skyline pos.x pos.y (w + gap) (h + gap) u hu with
      ⟨v, hv, hy⟩ | hy
    · exact hy ▸ inv.ynn v hv
    · rw [hy]; linarith
  · intro u hu
    rcases addRect_ys st.skyline pos.x pos.y (w + gap) (h + gap) u hu with
      ⟨v, hv, hy⟩ | hy
    · exact le_trans (hy ▸ inv.ymb v hv) (le_max_left _ _)
    · exact hy ▸ le_max_right _ _
  · obtain ⟨n1, h1⟩ := inv.mbInt
    obtain ⟨n2, h2⟩ := hintNewY
    refine ⟨max n1 n2, ?_⟩
    rw [h1, h2]
    exact (Int.cast_max).symm
  · exact le_trans inv.mbnn (le_max_left _ _)
  · intro r hr
    rcases List.mem_append.mp hr with hm | hm
    · exact le_trans (inv.tops r hm) (le_max_left _ _)
    · rcases List.mem_singleton.mp hm with he
      subst he
      have := le_max_right st.maxBottom (pos.y + (h + gap))
      simp only
      linarith
  · intro r hr
    rcases List.mem_append.mp hr with hm | hm
    · exact inv.inside r hm
    · rcases List.mem_singleton.mp hm with he
      subst he
      exact ⟨hb1, by simp only; linarith, hynnP⟩
  · intro r hr p hp1 hp2 yy hcov
    rcases (covY p yy).mp hcov with ⟨⟨hin1, hin2⟩, hyy⟩ | ⟨hout, hcold⟩
    · -- the point sits under the new rectangle: the skyline there is newY
      rcases List.mem_append.mp hr with hm | hm
      · -- old rectangle: its top is below the chosen pos.y
        have hrin := inv.inside r hm
        obtain ⟨zz, hzz⟩ := hcovp p (by linarith [hrin.1]) (by linarith [hrin.2.1])
        have h1 := inv.skyAbove r hm p hp1 hp2 zz hzz
        have h2 := hclear p zz hin1 hin2 hzz
        rw [hyy]
        linarith
      · rcases List.mem_singleton.mp hm with he
        subst he
        simp only at hp1 hp2 ⊢
        rw [hyy]
        linarith
    · -- outside the new rectangle: the old skyline argument applies
      rcases List.mem_append.mp hr with hm | hm
      · exact inv.skyAbove r hm p hp1 hp2 yy hcold
      · rcases List.mem_singleton.mp hm with he
        subst he
        simp only at hp1 hp2
        exact absurd ⟨hp1, by linarith⟩ hout
  · intro r hr
    rcases List.mem_append.mp hr with hm | hm
    · exact inv.dims r hm
    · rcases List.mem_singleton.mp hm with he
      subst he
      exact ⟨hw, hh⟩
  · refine List.pairwise_append.mpr ⟨inv.disj, List.pairwise_singleton _ _, ?_⟩
    intro a ha b hb
    rcases List.mem_singleton.mp hb with he
    subst he
    intro hov
    obtain ⟨o1, o2, o3, o4⟩ := hov
    simp only at o1 o2 o3 o4
    have hadims := inv.dims a ha
    have hain := inv.inside a ha
    -- a point in both inflated x-ranges
    set p := max a.x pos.x with hp
    have hpa1 : a.x ≤ p := le_max_left _ _
    have hpp1 : pos.x ≤ p := le_max_right _ _
    have hpa2 : p < a.x + a.w + gap := max_lt (by linarith [hadims.1]) o2
    have hpp2 : p < pos.x + (w + gap) := max_lt (by linarith) (by linarith)
    obtain ⟨zz, hzz⟩ := hcovp p (by linarith [hain.1]) (by linarith [hain.2.1])
    have h1 := inv.skyAbove a ha p hpa1 hpa2 zz hzz
    have h2 := hclear p zz hpp1 hpp2 hzz
    linarith

theorem packStep_inv (cw gap : ℚ) (sz : ℚ × ℚ) (st : PackState)
    (hcw : 0 < cw) (hgap : 0 ≤ gap) (hw : 0 < sz.1) (hh : 0 < sz.2)
    (hfit : sz.1 + gap ≤ cw) (hintH : ∃ n : ℤ, sz.2 + gap = n)
    (inv : PackInv cw gap st) : PackInv cw gap (packStep cw gap st sz) := by
  have hmin : min (sz.1 + gap) cw = sz.1 + gap := min_eq_left hfit
  obtain ⟨hyInt, hynnP, hymbP, hclear⟩ := choosePos_facts cw (sz.1 + gap)
    (sz.2 + gap) st.skyline st.maxBottom inv.hsp inv.intY inv.ynn inv.ymb
    inv.mbInt inv.mbnn
  have hb := choosePos_bounds cw (sz.1 + gap) (sz.2 + gap) st.skyline
    st.maxBottom inv.hsp hfit
  have hstep : packStep cw gap st sz =
      PackState.mk
        (addRect ((findPosition cw (sz.1 + gap) (sz.2 + gap)
            st.skyline).getD (Pos.mk 0 st.maxBottom)).x
          ((findPosition cw (sz.1 + gap) (sz.2 + gap)
            st.skyline).getD (Pos.mk 0 st.maxBottom)).y
          (sz.1 + gap) (sz.2 + gap) st.skyline)
        (max st.maxBottom
          (((findPosition cw (sz.1 + gap) (sz.2 + gap)
            st.skyline).getD (Pos.mk 0 st.maxBottom)).y + (sz.2 + gap)))
        (st.placed ++ [Rect.mk
          ((findPosition cw (sz.1 + gap) (sz.2 + gap)
            st.skyline).getD (Pos.mk 0 st.maxBottom)).x
          ((findPosition cw (sz.1 + gap) (sz.2 + gap)
            st.skyline).getD (Pos.mk 0 st.maxBottom)).y sz.1 sz.2]) := by
    simp only [packStep, hmin]
  rw [hstep]
  exact step_inv_core cw gap sz.1 sz.2 st _ hcw hgap hw hh hintH inv
    hb.1 hb.2 hyInt hynnP hymbP hclear

theorem packAll_inv (cw gap : ℚ) (sizes : List (ℚ × ℚ))
    (hcw : 0 < cw) (hgap : 0 ≤ gap)
    (hsz : ∀ sz ∈ sizes, 0 < sz.1 ∧ 0 < sz.2 ∧ sz.1 + gap ≤ cw ∧
      ∃ n : ℤ, sz.2 + gap = n) :
    PackInv cw gap (packAll cw gap sizes) := by
  have hinit : PackInv cw gap (PackState.mk [Seg.mk 0 0 cw] 0 []) := by
    refine ⟨⟨rfl, hcw, show (0 : ℚ) + cw = cw by ring⟩, ?_, ?_, ?_, ⟨0, rfl⟩,
      le_refl _, ?_, ?_, ?_, ?_, List.Pairwise.nil⟩
    · intro s hs
      rcases List.mem_singleton.mp hs with he
      subst he
      exact ⟨0, rfl⟩
    · intro s hs
      rcases List.mem_singleton.mp hs with he
      subst he
      exact le_refl _
    · intro s hs
      rcases List.mem_singleton.mp hs with he
      subst he
      exact le_refl _
    · intro r hr; cases hr
    · intro r hr; cases hr
    · intro r hr; cases hr
    · intro r hr; cases hr
  unfold packAll
  revert hinit hsz
  generalize PackState.mk [Seg.mk 0 0 cw] 0 [] = st0
  induction sizes generalizing st0 with
  | nil => intro _ h; exact h
  | cons sz r ih =>
    intro hsz h
    rw [List.foldl_cons]
    refine ih _ (fun p hp => hsz p (by simp [hp])) ?_
    obtain ⟨h1, h2, h3, h4⟩ := hsz sz (by simp)
    exact packStep_inv cw gap sz st0 hcw hgap h1 h2 h3 h4 h

/-- Counterexample to **C2** as stated: a pack run of three tiles, each
produced by the source's sizing step (area 6000, bounds `[1, 999] × [1,
10.3]`, aspect ratios `60`, `39601/1500` and `240`), container width 1000,
gap 1.  `mergeSkyline`'s `0.5` tolerance merges skyline heights `11` and
`11.3` into a flat `11`, so the third tile is placed at `y = 11`, closer
than the configured gap to the second tile (whose inflated top edge is
`11.3`): the second and third placed rectangles overlap once inflated by
the gap. -/
theorem packing_overlap_cex :
    tileDims 6000 1 999 1 (103/10) 60 600 10 ∧
    tileDims 6000 1 999 1 (103/10) (39601/1500) 398 (103/10) ∧
    tileDims 6000 1 999 1 (103/10) 240 999 5 ∧
    (packAll 1000 1 [((600 : ℚ), (10 : ℚ)), (398, 103/10), (999, 5)]).placed =
      [Rect.mk 0 0 600 10, Rect.mk 601 0 398 (103/10), Rect.mk 0 11 999 5] ∧
    inflOverlap 1 (Rect.mk 601 0 398 ((103:ℚ)/10)) (Rect.mk 0 11 999 5) := by
  refine ⟨?_, ?_, ?_, ?_, ?_⟩
  · refine ⟨600, by norm_num, ?_, ?_, ?_⟩
    · rw [if_neg (by norm_num)]; norm_num
    · unfold clamp; norm_num
    · rw [if_neg (by norm_num)]; unfold clamp; norm_num
  · refine ⟨398, by norm_num, ?_, ?_, ?_⟩
    · rw [if_neg (by norm_num)]; norm_num
    · unfold clamp; norm_num
    · rw [if_neg (by norm_num)]; unfold clamp; norm_num
  · refine ⟨1200, by norm_num, ?_, ?_, ?_⟩
    · rw [if_neg (by norm_num)]; norm_num
    · unfold clamp; norm_num
    · rw [if_neg (by norm_num)]; unfold clamp; norm_num
  · norm_num [packAll, packStep, findPosition, findGo, coverScan, betterPos,
      addRect, splitSegs, sortByX, List.insertionSort, List.orderedInsert,
      mergeSkyline, mergeInto, mergeCond, segLe, abs_lt, min_def, max_def]
  · norm_num [inflOverlap]

/-- **C2 (amended)**: whenever every tile's inflated width fits the
container and every inflated tile height is an integer (so the `0.5`
merge tolerance of the skyline is exact), every placed tile's rectangle
lies within `[0, containerWidth) × [0, totalHeight)` and any two placed
tiles' rectangles are separated by at least the configured gap (their
gap-inflated rectangles do not overlap). -/
theorem packing_containment (cw gap : ℚ) (sizes : List (ℚ × ℚ))
    (hcw : 0 < cw) (hgap : 0 ≤ gap)
    (hsz : ∀ sz ∈ sizes, 0 < sz.1 ∧ 0 < sz.2 ∧ sz.1 + gap ≤ cw ∧
      ∃ n : ℤ, sz.2 + gap = n) :
    (∀ r ∈ (packAll cw gap sizes).placed,
      0 ≤ r.x ∧ r.x + r.w ≤ cw ∧ 0 ≤ r.y ∧
        r.y + r.h ≤ (packAll cw gap sizes).maxBottom) ∧
    (packAll cw gap sizes).placed.Pairwise (fun a b => ¬ inflOverlap gap a b) := by
  have inv := packAll_inv cw gap sizes hcw hgap hsz
  refine ⟨?_, inv.disj⟩
  intro r hr
  have h1 := inv.inside r hr
  have h2 := inv.tops r hr
  exact ⟨h1.1, by linarith [h1.2.1], h1.2.2, by linarith⟩

/-- Witness for the amended C2: three integer-height tiles with gap 8. -/
theorem packing_containment_witness :
    (∀ r ∈ (packAll 1000 8
        [((300 : ℚ), (200 : ℚ)), (300, 150), (500, 100)]).placed,
      0 ≤ r.x ∧ r.x + r.w ≤ 1000 ∧ 0 ≤ r.y ∧
        r.y + r.h ≤ (packAll 1000 8
          [((300 : ℚ), (200 : ℚ)), (300, 150), (500, 100)]).maxBottom) ∧
    (packAll 1000 8
        [((300 : ℚ), (200 : ℚ)), (300, 150), (500, 100)]).placed.Pairwise
      (fun a b => ¬ inflOverlap 8 a b) := by
  refine packing_containment 1000 8 _ (by norm_num) (by norm_num) ?_
  intro sz hsz
  simp only [List.mem_cons, List.not_mem_nil, or_false] at hsz
  rcases hsz with he | he | he <;> subst he
  · exact ⟨by norm_num, by norm_num, by norm_num, ⟨208, by norm_num⟩⟩
  · exact ⟨by norm_num, by norm_num, by norm_num, ⟨158, by norm_num⟩⟩
  · exact ⟨by norm_num, by norm_num, by norm_num, ⟨108, by norm_num⟩⟩

/-- Witness for C1: one landscape tile in a 1000-wide container. -/
theorem skyline_invariant_holds_witness :
    SkylineInvariant 1000 (Packer.packAll 1000 8 [((600 : ℚ), (10 : ℚ))]).skyline := by
  refine skyline_invariant_holds 1000 8 6000 1 1000 1 10 [(600, 10)]
    (by norm_num) (by norm_num) (by norm_num) ?_ [(600, 10)] [] rfl
  intro sz hsz
  rcases List.mem_singleton.mp hsz with he
  subst he
  refine ⟨60, 600, by norm_num, ?_, ?_, ?_⟩
  · rw [if_neg (by norm_num)]
    norm_num
  · unfold clamp
    norm_num
  · rw [if_neg (by norm_num)]
    unfold clamp
    norm_num

end Packer

namespace Gallery

instance (dp : String → Option Int) (mode : String) :
    IsTotal Photo (dateLe dp mode) := by
  constructor
  intro a b
  unfold dateLe
  split <;> omega

instance (dp : String → Option Int) (mode : String) :
    IsTrans Photo (dateLe dp mode) := by
  constructor
  intro a b c
  unfold dateLe
  split <;> omega

/-! ## Permutation facts about the shuffle -/

theorem set_getElem_id {α : Type} (l : List α) (i : Nat) (h : i < l.length) :
    l.set i l[i] = l := by
  apply List.ext_getElem
  · simp
  · intro n h1 h2
    by_cases hn : n = i
    · subst hn; simp [List.getElem_set_self]
    · rw [List.getElem_set_ne (fun he => hn he.symm)]

theorem lswap_perm {α : Type} [DecidableEq α] (l : List α) (i j : Nat) :
    (lswap l i j).Perm l := by
  unfold lswap
  cases hi : l[i]? with
  | none => exact List.Perm.refl l
  | some a =>
    cases hj : l[j]? with
    | none => exact List.Perm.refl l
    | some b =>
      have hil : i < l.length := (List.getElem?_eq_some_iff.mp hi).1
      have hjl : j < l.length := (List.getElem?_eq_some_iff.mp hj).1
      have hia : l[i] = a := (List.getElem?_eq_some_iff.mp hi).2
      have hjb : l[j] = b := (List.getElem?_eq_some_iff.mp hj).2
      show ((l.set i b).set j a).Perm l
      by_cases hij : i = j
      · subst hij
        have hab : a = b := hia.symm.trans hjb
        subst hab
        rw [List.set_set, ← hia, set_getElem_id l i hil]
      · rw [List.perm_iff_count]
        intro x
        have hjl2 : j < (l.set i b).length := by simpa using hjl
        rw [List.count_set a x (l.set i b) j hjl2, List.count_set b x l i hil]
        have hone : (l[i] == x) = true → 1 ≤ l.count x := by
          intro hx
          have hm : l[i] ∈ l := List.getElem_mem hil
          rw [eq_of_beq hx] at hm
          exact List.count_pos_iff.mpr hm
        have hgj : (l.set i b)[j] = l[j] := List.getElem_set_ne hij hjl2
        rw [hgj, hjb, hia]
        rcases Bool.eq_false_or_eq_true (a == x) with ha | ha <;>
          rcases Bool.eq_false_or_eq_true (b == x) with hb | hb <;>
            simp only [ha, hb, if_true, if_false] <;> first
              | rfl
              | omega
              | (have h1 := hone (by rw [hia]; exact ha); omega)

theorem fyLoop_perm {α : Type} [DecidableEq α] (f : Nat → Nat) :
    ∀ (i : Nat) (l : List α), (fyLoop f i l).Perm l := by
  intro i
  induction i with
  | zero => intro l; exact List.Perm.refl l
  | succ n ih =>
    intro l
    exact (ih _).trans (lswap_perm l (n + 1) (f (n + 1) % (n + 2)))

/-- **C8**: for every input array and every sequence of random draws,
`sortPhotos` with mode `random` returns a permutation of the input — the
multiset of photos is preserved, nothing added, dropped or duplicated. -/
theorem random_sort_is_perm (dp : String → Option Int) (f : Nat → Nat)
    (arr : List Photo) : (sortPhotos dp f arr "random").Perm arr := by
  unfold sortPhotos shuffle
  rw [if_pos rfl]
  exact fyLoop_perm f (arr.length - 1) arr

/-! ## Filtering: claim C3 -/

/-- **C3**: the empty selection is the identity (same list, same order);
with a selection, ALL mode keeps a photo iff its tag set contains every
selected tag, ANY mode (any non-`"AND"` value of `filterMode`) keeps it iff
the tag sets intersect; tags are compared as exact strings. -/
theorem filter_spec (mode : String) (sel : List String) (arr : List Photo) :
    (sel = [] → applyFilter mode sel arr = arr) ∧
    (mode = "AND" →
      ∀ p, p ∈ applyFilter mode sel arr ↔ p ∈ arr ∧ ∀ t ∈ sel, t ∈ photoTags p) ∧
    (mode ≠ "AND" → sel ≠ [] →
      ∀ p, p ∈ applyFilter mode sel arr ↔ p ∈ arr ∧ ∃ t ∈ sel, t ∈ photoTags p) := by
  refine ⟨?_, ?_, ?_⟩
  · intro h
    subst h
    simp [applyFilter]
  · intro hm p
    subst hm
    by_cases hs : sel = []
    · subst hs
      simp [applyFilter]
    · have hlen : ¬ sel.length = 0 := by simpa using hs
      simp [applyFilter, hlen, List.mem_filter, hasAllTags, List.all_eq_true]
  · intro hm hs p
    have hlen : ¬ sel.length = 0 := by simpa using hs
    simp [applyFilter, hlen, hm, List.mem_filter, hasAnyTag, List.any_eq_true]

/-- Witness for C3, on the spec's own example scenario (five photos tagged
`{sunset}`, `{sunset, beach}`, `{beach}`, `{}`, `{sunset, beach}`). -/
theorem filter_spec_witness :
    (applyFilter "AND" [] [Photo.mk (some ["sunset"]) none] =
      [Photo.mk (some ["sunset"]) none]) ∧
    (Photo.mk (some ["sunset", "beach"]) none ∈
        applyFilter "AND" ["sunset", "beach"]
          [Photo.mk (some ["sunset"]) none,
           Photo.mk (some ["sunset", "beach"]) none,
           Photo.mk (some ["beach"]) none,
           Photo.mk (some []) none,
           Photo.mk (some ["sunset", "beach"]) none] ↔
      Photo.mk (some ["sunset", "beach"]) none ∈
          [Photo.mk (some ["sunset"]) none,
           Photo.mk (some ["sunset", "beach"]) none,
           Photo.mk (some ["beach"]) none,
           Photo.mk (some []) none,
           Photo.mk (some ["sunset", "beach"]) none] ∧
        ∀ t ∈ ["sunset", "beach"],
          t ∈ photoTags (Photo.mk (some ["sunset", "beach"]) none)) ∧
    (Photo.mk (some ["beach"]) none ∈
        applyFilter "OR" ["sunset", "beach"]
          [Photo.mk (some ["sunset"]) none,
           Photo.mk (some ["beach"]) none] ↔
      Photo.mk (some ["beach"]) none ∈
          [Photo.mk (some ["sunset"]) none, Photo.mk (some ["beach"]) none] ∧
        ∃ t ∈ ["sunset", "beach"],
          t ∈ photoTags (Photo.mk (some ["beach"]) none)) :=
  ⟨(filter_spec "AND" [] _).1 rfl,
   (filter_spec "AND" ["sunset", "beach"] _).2.1 rfl _,
   (filter_spec "OR" ["sunset", "beach"] _).2.2 (by decide) (by decide) _⟩

/-! ## Sorting: claims C5, C7, C10 -/

theorem dateLe_asc (dp : String → Option Int) (a b : Photo) :
    dateLe dp "date_asc" a b ↔ tsOf dp a ≤ tsOf dp b := by
  unfold dateLe
  rw [if_pos rfl]
  omega

theorem dateLe_desc (dp : String → Option Int) (a b : Photo) :
    dateLe dp "date_desc" a b ↔ tsOf dp b ≤ tsOf dp a := by
  unfold dateLe
  rw [if_neg (by decide)]
  omega

theorem orderedInsert_congr {α : Type} (r₁ r₂ : α → α → Prop)
    [DecidableRel r₁] [DecidableRel r₂] (h : ∀ a b, r₁ a b ↔ r₂ a b) (a : α) :
    ∀ l, List.orderedInsert r₁ a l = List.orderedInsert r₂ a l
  | [] => rfl
  | b :: l => by
    simp only [List.orderedInsert]
    exact if_congr (h a b) rfl
      (congrArg (fun t => b :: t) (orderedInsert_congr r₁ r₂ h a l))

theorem insertionSort_congr {α : Type} (r₁ r₂ : α → α → Prop)
    [DecidableRel r₁] [DecidableRel r₂] (h : ∀ a b, r₁ a b ↔ r₂ a b) :
    ∀ l, List.insertionSort r₁ l = List.insertionSort r₂ l
  | [] => rfl
  | a :: l => by
    simp only [List.insertionSort]
    rw [insertionSort_congr r₁ r₂ h l]
    exact orderedInsert_congr r₁ r₂ h a _

/-- **C10**: any sort mode other than `random` and `date_asc` (including
unknown values) behaves exactly as `date_desc`: the comparator's else
branch is the descending one. -/
theorem unknown_mode_is_date_desc (dp : String → Option Int) (f : Nat → Nat)
    (arr : List Photo) (mode : String) (h1 : mode ≠ "random")
    (h2 : mode ≠ "date_asc") :
    sortPhotos dp f arr mode = sortPhotos dp f arr "date_desc" := by
  unfold sortPhotos
  rw [if_neg h1, if_neg (by decide)]
  refine insertionSort_congr _ _ (fun a b => ?_) arr
  unfold dateLe
  rw [if_neg h2, if_neg (by decide)]

/-- Witness for C10 at the unknown mode `"banana"`. -/
theorem unknown_mode_is_date_desc_witness :
    sortPhotos (fun _ => none) (fun _ => 0)
        [Photo.mk none none, Photo.mk (some ["a"]) none] "banana" =
      sortPhotos (fun _ => none) (fun _ => 0)
        [Photo.mk none none, Photo.mk (some ["a"]) none] "date_desc" :=
  unknown_mode_is_date_desc (fun _ => none) (fun _ => 0)
    [Photo.mk none none, Photo.mk (some ["a"]) none] "banana"
    (by decide) (by decide)

/-- **C5**: with every photo's date explicit and parseable and all derived
timestamps pairwise distinct, `date_desc` output is the exact reverse of
`date_asc` output. -/
theorem date_desc_reverses_date_asc (dp : String → Option Int) (f : Nat → Nat)
    (arr : List Photo) (hpar : ∀ p ∈ arr, parseDateTaken dp p ≠ none)
    (hdist : (arr.map (tsOf dp)).Pairwise (fun a b => a ≠ b)) :
    sortPhotos dp f arr "date_desc" = (sortPhotos dp f arr "date_asc").reverse := by
  unfold sortPhotos
  rw [if_neg (by decide), if_neg (by decide)]
  have pasc : (List.insertionSort (dateLe dp "date_asc") arr).Perm arr :=
    List.perm_insertionSort _ arr
  have pdesc : (List.insertionSort (dateLe dp "date_desc") arr).Perm arr :=
    List.perm_insertionSort _ arr
  have sasc : List.Sorted (dateLe dp "date_asc")
      (List.insertionSort (dateLe dp "date_asc") arr) :=
    List.sorted_insertionSort _ arr
  have sdesc : List.Sorted (dateLe dp "date_desc")
      (List.insertionSort (dateLe dp "date_desc") arr) :=
    List.sorted_insertionSort _ arr
  have hne : ∀ {l : List Photo}, l.Perm arr →
      l.Pairwise (fun a b => tsOf dp a ≠ tsOf dp b) := by
    intro l hl
    have h1 : (l.map (tsOf dp)).Perm (arr.map (tsOf dp)) := hl.map _
    have h2 : (l.map (tsOf dp)).Pairwise (fun a b => a ≠ b) :=
      (h1.pairwise_iff (fun h => h.symm)).mpr hdist
    exact List.pairwise_map.mp h2
  have hlt_asc : (List.insertionSort (dateLe dp "date_asc") arr).Pairwise
      (fun a b => tsOf dp a < tsOf dp b) := by
    refine (sasc.and (hne pasc)).imp ?_
    intro a b hab
    exact lt_of_le_of_ne ((dateLe_asc dp a b).mp hab.1) hab.2
  have hlt_desc : (List.insertionSort (dateLe dp "date_desc") arr).reverse.Pairwise
      (fun a b => tsOf dp a < tsOf dp b) := by
    rw [List.pairwise_reverse]
    refine (sdesc.and (hne pdesc)).imp ?_
    intro a b hab
    exact lt_of_le_of_ne ((dateLe_desc dp a b).mp hab.1) (fun h => hab.2 h.symm)
  haveI : IsAntisymm Photo (fun a b => tsOf dp a < tsOf dp b) :=
    ⟨fun a b h1 h2 => absurd h2 (not_lt.mpr (le_of_lt h1))⟩
  have heq : List.insertionSort (dateLe dp "date_asc") arr =
      (List.insertionSort (dateLe dp "date_desc") arr).reverse :=
    List.eq_of_perm_of_sorted
      (pasc.trans ((List.reverse_perm _).trans pdesc).symm) hlt_asc hlt_desc
  rw [heq, List.reverse_reverse]

/-- Witness for C5 with two photos carrying distinct parseable dates. -/
theorem date_desc_reverses_date_asc_witness :
    sortPhotos
        (fun s => if s = "2020-01-01" then some 1577836800000
          else if s = "2021-01-01" then some 1609459200000 else none)
        (fun _ => 0)
        [Photo.mk none (some (Exif.mk (some "2020-01-01"))),
         Photo.mk none (some (Exif.mk (some "2021-01-01")))] "date_desc" =
      (sortPhotos
        (fun s => if s = "2020-01-01" then some 1577836800000
          else if s = "2021-01-01" then some 1609459200000 else none)
        (fun _ => 0)
        [Photo.mk none (some (Exif.mk (some "2020-01-01"))),
         Photo.mk none (some (Exif.mk (some "2021-01-01")))] "date_asc").reverse :=
  date_desc_reverses_date_asc _ _ _ (by decide) (by decide)

/-- A `Date.parse` oracle under which a real date string parses to a
negative (pre-1970) timestamp, as `Date.parse` does in JavaScript. -/
def dpPre1970 : String → Option Int :=
  fun s => if s = "1960-06-01T00:00:00Z" then some (-302400000000) else none

/-- A photo with no EXIF record at all. -/
def photoNoDate : Photo :=
  Photo.mk (some []) none

/-- A photo taken before 1970 (negative JS timestamp). -/
def photoPre1970 : Photo :=
  Photo.mk (some []) (some (Exif.mk (some "1960-06-01T00:00:00Z")))

/-- Counterexample to **C7** as stated: a photo with a missing date gets
timestamp `0`, but it does not sort as the oldest — a pre-1970 photo has a
negative timestamp and sorts before it under `date_asc`. -/
theorem missing_date_not_oldest :
    parseDateTaken dpPre1970 photoNoDate = none ∧
    tsOf dpPre1970 photoPre1970 < 0 ∧
    sortPhotos dpPre1970 (fun _ => 0) [photoNoDate, photoPre1970] "date_asc" =
      [photoPre1970, photoNoDate] := by
  refine ⟨rfl, by decide, by decide⟩

/-- **C7 (amended)**: a photo with an absent or unparseable `dateTaken` is
given timestamp exactly `0` and sorting is total (never throws); under
`date_asc` it sorts before every photo with a positive timestamp — i.e. as
oldest among photos not taken before 1970 — but after photos with negative
timestamps.  Formally: whatever precedes it in the `date_asc` output has a
non-positive timestamp. -/
theorem missing_date_ts_zero (dp : String → Option Int) (f : Nat → Nat)
    (p : Photo) (arr l₁ l₂ : List Photo) (q : Photo)
    (h : parseDateTaken dp p = none)
    (heq : sortPhotos dp f arr "date_asc" = l₁ ++ q :: l₂) (hp : p ∈ l₂) :
    tsOf dp p = 0 ∧ tsOf dp q ≤ 0 := by
  have hts : tsOf dp p = 0 := by
    unfold tsOf
    rw [h]
    rfl
  refine ⟨hts, ?_⟩
  have hs : List.Sorted (dateLe dp "date_asc")
      (sortPhotos dp f arr "date_asc") := by
    unfold sortPhotos
    rw [if_neg (by decide)]
    exact List.sorted_insertionSort _ arr
  rw [heq] at hs
  have hqp : dateLe dp "date_asc" q p := by
    have h1 := (List.pairwise_append.mp hs).2.1
    exact (List.pairwise_cons.mp h1).1 p hp
  have := (dateLe_asc dp q p).mp hqp
  omega

/-- Witness for the amended C7: two dateless photos keep their stable order
under `date_asc`, and the theorem applies to the second of them. -/
theorem missing_date_ts_zero_witness :
    tsOf (fun _ => none) (Photo.mk (some []) none) = 0 ∧
    tsOf (fun _ => none) (Photo.mk (some ["a"]) none) ≤ 0 :=
  missing_date_ts_zero (fun _ => none) (fun _ => 0)
    (Photo.mk (some []) none)
    [Photo.mk (some ["a"]) none, Photo.mk (some []) none]
    [] [Photo.mk (some []) none] (Photo.mk (some ["a"]) none)
    rfl (by decide) (by decide)

end Gallery
